import Mathlib

/-!
# Verification of the Ironman-Analyzer slot-allocation core (`src/analyze.py`)

Shallow embedding of `calculate_slot_allocation` and `determine_qualifiers`.

Modelling decisions, each forced by the source:

* The polars aggregation (`group_by` + left join, lines 143-153) produces one
  row per (age_group, gender) pair with `starters_count` / `finishers_count`.
  polars `group_by` without `maintain_order=True` returns those rows in an
  unspecified order, so the allocator is embedded as a function of the
  aggregated row list `slotDf`; `buildSlotDf` produces one possible order
  (first appearance) and theorems quantify over permutations where the order
  matters.
* Python dicts preserve insertion order and update in place; the allocation
  dict is an association list with exactly those semantics (`dset`, `dincr`).
  `dincr` models `d[k] += v`, which in Python requires the key to be present
  (it raises `KeyError` otherwise); every call site has the key present.
* Python float arithmetic on the proportional shares is modelled as exact
  rational arithmetic; `int(x)` on a non-negative value is `truncQ`.
* Python `/` raises `ZeroDivisionError` on a zero divisor, so division is
  `checkedDiv : ℚ → ℚ → Option ℚ` and the allocator returns `Option`.
* `list.sort(key=..., reverse=True)` is a stable descending sort, embedded
  with `List.insertionSort` (stable, structurally recursive) and a `b ≤ a`
  comparator.
-/

namespace IronmanAnalyzer

/-- One roster row, restricted to the fields the core reads
(`age_group`, `finisher`, `age_group_rank`, plus the identifying name). -/
structure Competitor where
  name : String
  age_group : String
  finisher : Bool
  age_group_rank : Nat
deriving DecidableEq, Repr

/-- One row of the aggregated `slot_df` (lines 143-153 of `analyze.py`). -/
structure SlotRow where
  age_group : String
  gender : String
  starters_count : Nat
  finishers_count : Nat
deriving DecidableEq, Repr

/-- The allocation dict: insertion-ordered association list, label ↦ slots. -/
abbrev Alloc := List (String × Int)

/-- Dict lookup (`d[k]` / `d.get(k)`), first matching key. -/
def dget? (m : Alloc) (k : String) : Option Int :=
  match m with
  | [] => none
  | p :: rest => if p.1 = k then some p.2 else dget? rest k

/-- Dict lookup with default (`d.get(k, dflt)`). -/
def dgetD (m : Alloc) (k : String) (d : Int) : Int :=
  (dget? m k).getD d

/-- Dict membership (`k in d`). -/
def dmem (m : Alloc) (k : String) : Prop :=
  k ∈ m.map Prod.fst

instance (m : Alloc) (k : String) : Decidable (dmem m k) :=
  inferInstanceAs (Decidable (k ∈ m.map Prod.fst))

/-- Dict assignment `d[k] = v`: replace in place if present, else append. -/
def dset (m : Alloc) (k : String) (v : Int) : Alloc :=
  match m with
  | [] => [(k, v)]
  | p :: rest => if p.1 = k then (k, v) :: rest else p :: dset rest k v

/-- Dict increment `d[k] += v` (key present at every call site). -/
def dincr (m : Alloc) (k : String) (v : Int) : Alloc :=
  match m with
  | [] => []
  | p :: rest => if p.1 = k then (p.1, p.2 + v) :: rest else p :: dincr rest k v

/-- `age_group.str.slice(0, 1)` (line 135): gender is the label's first character. -/
def genderOf (ag : String) : String := ag.take 1

/-- Python `int(x)` (truncation toward zero) on an exact rational. -/
def truncQ (q : ℚ) : Int := if 0 ≤ q then ⌊q⌋ else ⌈q⌉

/-- Division, failing on a zero divisor as Python `/` does. -/
def checkedDiv (a b : ℚ) : Option ℚ := if b = 0 then none else some (a / b)

/-- Stable descending sort by the rational component
(`lst.sort(key=lambda x: x[1], reverse=True)`). -/
def sortDescQ (l : List (String × ℚ)) : List (String × ℚ) :=
  l.insertionSort fun a b => b.2 ≤ a.2

/-- `slot_allocation = {ag: 0 for ag in valid_age_groups}` (line 155). -/
def initAlloc (valid : List String) : Alloc :=
  valid.foldl (fun m ag => dset m ag 0) []

/-- Minimum-guarantee loop (lines 160-172): every aggregated row with a
starter gets allocation 1 and decrements its gender's budget (any gender
other than `"M"` decrements the female budget, as in the source's `else`). -/
def minGuarantee (slotDf : List SlotRow) (alloc : Alloc) (mens womens : Int) :
    Alloc × Int × Int :=
  slotDf.foldl
    (fun st row =>
      if row.starters_count = 0 then st
      else
        (dset st.1 row.age_group 1,
         if row.gender = "M" then st.2.1 - 1 else st.2.1,
         if row.gender = "M" then st.2.2 else st.2.2 - 1))
    (alloc, mens, womens)

/-- `male_groups` (lines 176-178). -/
def maleGroups (slotDf : List SlotRow) : List SlotRow :=
  slotDf.filter fun r => decide (r.gender = "M" ∧ 0 < r.starters_count)

/-- `female_groups` (lines 179-181). -/
def femaleGroups (slotDf : List SlotRow) : List SlotRow :=
  slotDf.filter fun r => decide (r.gender = "F" ∧ 0 < r.starters_count)

/-- Flooring loop of the proportional phase (lines 193-197): add the
truncated share to each category and subtract it from the budget. -/
def floorLoop (props : List (String × ℚ)) (alloc : Alloc) (budget : Int) :
    Alloc × Int :=
  props.foldl (fun st p => (dincr st.1 p.1 (truncQ p.2), st.2 - truncQ p.2))
    (alloc, budget)

/-- Largest-remainder / reallocation award loop
(`for i in range(n): if i < len(ranked): d[ranked[i][0]] += 1`). -/
def awardLoop (ranked : List (String × ℚ)) (n : Nat) (alloc : Alloc) : Alloc :=
  (ranked.take n).foldl (fun a p => dincr a p.1 1) alloc

/-- One gender's proportional apportionment plus largest-remainder correction
(lines 183-209 for men; lines 211-239 are the identical female copy). -/
def genderPhase (groups : List SlotRow) (budget : Int) (alloc : Alloc) :
    Option Alloc :=
  if 0 < budget ∧ groups ≠ [] then
    let total : Int := (groups.map fun r => (r.starters_count : Int)).sum
    if 0 < total then do
      let props ← groups.mapM fun r => do
        let q ← checkedDiv (r.starters_count : ℚ) (total : ℚ)
        pure (r.age_group, q * (budget : ℚ))
      let st := floorLoop props alloc budget
      if 0 < st.2 then
        let dps := props.map fun p => (p.1, p.2 - (truncQ p.2 : ℚ))
        pure (awardLoop (sortDescQ dps) st.2.toNat st.1)
      else pure st.1
    else pure alloc
  else pure alloc

/-- Body of the zero-finisher reallocation loop (lines 241-272) for a single
aggregated row: withdraw the allocation of a started-but-unfinished category
and hand one slot each to the top-ranked same-gender categories that do have
finishers, ranked by `starters_count / max(1, current_allocation)`. -/
def reallocStep (mg fg : List SlotRow) (alloc : Alloc) (row : SlotRow) :
    Option Alloc :=
  if 0 < row.starters_count ∧ row.finishers_count = 0 ∧
      dmem alloc row.age_group ∧ 0 < dgetD alloc row.age_group 0 then
    let k := dgetD alloc row.age_group 0
    let alloc1 := dset alloc row.age_group 0
    let targets := (if row.gender = "M" then mg else fg).filter
      fun t => decide (0 < t.finishers_count)
    if targets = [] then pure alloc1
    else do
      let ranked ← targets.mapM fun t => do
        let q ← checkedDiv (t.starters_count : ℚ)
          ((max 1 (dgetD alloc1 t.age_group 1) : Int) : ℚ)
        pure (t.age_group, q)
      pure (awardLoop (sortDescQ ranked) k.toNat alloc1)
  else pure alloc

/-- Zero-finisher reallocation pass over all aggregated rows (lines 241-272). -/
def reallocPhase (slotDf : List SlotRow) (alloc : Alloc) : Option Alloc :=
  slotDf.foldlM (reallocStep (maleGroups slotDf) (femaleGroups slotDf)) alloc

/-- Backfill loop (lines 274-276): valid groups missing from the dict get 0. -/
def fillMissing (valid : List String) (alloc : Alloc) : Alloc :=
  valid.foldl (fun m ag => if dmem m ag then m else dset m ag 0) alloc

/-- The allocator state just after the largest-remainder correction and
before the zero-finisher reallocation (end of line 239 of `analyze.py`). -/
def allocBeforeRealloc (slotDf : List SlotRow) (valid : List String)
    (mens womens : Int) : Option Alloc :=
  let st := minGuarantee slotDf (initAlloc valid) mens womens
  do
    let a2 ← genderPhase (maleGroups slotDf) st.2.1 st.1
    genderPhase (femaleGroups slotDf) st.2.2 a2

/-- `calculate_slot_allocation` (lines 111-278), as a function of the
aggregated slot table (whose row order polars leaves unspecified), the
ground-truth age groups from `selector.json`, and the two quotas. -/
def calculate_slot_allocation (slotDf : List SlotRow) (valid : List String)
    (mens womens : Int) : Option Alloc := do
  let a ← allocBeforeRealloc slotDf valid mens womens
  let a4 ← reallocPhase slotDf a
  pure (fillMissing valid a4)

/-- Group keys in first-appearance order: one legal output order of the
polars aggregation (the engine may emit any permutation of these rows). -/
def groupKeys (rows : List Competitor) : List String :=
  rows.foldl (fun ks r => if r.age_group ∈ ks then ks else ks ++ [r.age_group]) []

/-- The aggregation of lines 134-153: restrict the roster to ground-truth
categories, then derive per-category starter and finisher counts (the left
join with `fill_null(0)` makes a missing finisher row count 0). -/
def buildSlotDf (roster : List Competitor) (valid : List String) :
    List SlotRow :=
  let rows := roster.filter fun r => decide (r.age_group ∈ valid)
  (groupKeys rows).map fun ag =>
    { age_group := ag
      gender := genderOf ag
      starters_count := (rows.filter fun r => decide (r.age_group = ag)).length
      finishers_count :=
        (rows.filter fun r => decide (r.age_group = ag ∧ r.finisher = true)).length }

/-- The indexed finishers of one category (`df.with_row_index` filtered to
`age_group == ag` and `finisher`, lines 289-297). -/
def finDf (df : List Competitor) (ag : String) : List (Nat × Competitor) :=
  df.enum.filter fun ic => decide (ic.2.age_group = ag ∧ ic.2.finisher = true)

/-- Loop body of `determine_qualifiers` for one allocation entry
(lines 291-306): skip non-positive counts, filter the indexed roster to the
category's finishers, sort by rank, keep the first `slots` indices. -/
def selectCat (df : List Competitor) (ag : String) (slots : Int) : List Nat :=
  if slots ≤ 0 then []
  else
    let groupDf := finDf df ag
    if groupDf = [] then []
    else
      ((groupDf.insertionSort fun a b =>
          a.2.age_group_rank ≤ b.2.age_group_rank).take slots.toNat).map
        Prod.fst

/-- `determine_qualifiers` (lines 281-308): row indices of qualifying
athletes, accumulated over the allocation dict in insertion order. -/
def determine_qualifiers (df : List Competitor) (slotAllocation : Alloc) :
    List Nat :=
  slotAllocation.foldl (fun acc p => acc ++ selectCat df p.1 p.2) []

/-- Well-formedness of an aggregated slot table: group keys are distinct
(group-by output), every key belongs to the ground-truth set (the roster was
filtered to it), and the gender column is the key's first character. -/
structure WfSlotDf (slotDf : List SlotRow) (valid : List String) : Prop where
  nodup : (slotDf.map SlotRow.age_group).Nodup
  sub : ∀ r ∈ slotDf, r.age_group ∈ valid
  gen : ∀ r ∈ slotDf, r.gender = genderOf r.age_group

/-- The keys of the allocation dict, in insertion order. -/
def keysOf (m : Alloc) : List String := m.map Prod.fst

/-- Sum of all slot counts held in the allocation dict. -/
def sumAll (m : Alloc) : Int := (m.map Prod.snd).sum

/-- Sum of the slot counts held by one gender's categories (categories whose
label starts with `g`). -/
def sumG (m : Alloc) (g : String) : Int :=
  ((m.filter fun p => decide (genderOf p.1 = g)).map Prod.snd).sum

/-- Generic increment fold: apply `d[k] += v` for each listed `(k, v)`.
Both halves of the proportional phase and the reallocation award loop are
instances of this. -/
def incrFold (l : List (String × Int)) (alloc : Alloc) : Alloc :=
  l.foldl (fun a p => dincr a p.1 p.2) alloc

/-- Pure value of `genderPhase` (which can only fail on a zero divisor, and
the `total > 0` guard rules that out). -/
def genderPhaseRun (groups : List SlotRow) (budget : Int) (alloc : Alloc) :
    Alloc :=
  if 0 < budget ∧ groups ≠ [] then
    let total : Int := (groups.map fun r => (r.starters_count : Int)).sum
    if 0 < total then
      let props := groups.map fun r =>
        (r.age_group, (r.starters_count : ℚ) / (total : ℚ) * (budget : ℚ))
      let st := floorLoop props alloc budget
      if 0 < st.2 then
        awardLoop (sortDescQ (props.map fun p => (p.1, p.2 - (truncQ p.2 : ℚ))))
          st.2.toNat st.1
      else st.1
    else alloc
  else alloc

/-- Pure value of `reallocStep` (the ranking divisor `max 1 _` is never 0). -/
def reallocStepRun (mg fg : List SlotRow) (alloc : Alloc) (row : SlotRow) :
    Alloc :=
  if 0 < row.starters_count ∧ row.finishers_count = 0 ∧
      dmem alloc row.age_group ∧ 0 < dgetD alloc row.age_group 0 then
    let k := dgetD alloc row.age_group 0
    let alloc1 := dset alloc row.age_group 0
    let targets := (if row.gender = "M" then mg else fg).filter
      fun t => decide (0 < t.finishers_count)
    if targets = [] then alloc1
    else
      let ranked := targets.map fun t =>
        (t.age_group,
         (t.starters_count : ℚ) / ((max 1 (dgetD alloc1 t.age_group 1) : Int) : ℚ))
      awardLoop (sortDescQ ranked) k.toNat alloc1
  else alloc

/-- Pure value of `reallocPhase`. -/
def reallocRun (slotDf : List SlotRow) (alloc : Alloc) : Alloc :=
  slotDf.foldl (reallocStepRun (maleGroups slotDf) (femaleGroups slotDf)) alloc

/-- Pure value of `allocBeforeRealloc`. -/
def allocBeforeReallocRun (slotDf : List SlotRow) (valid : List String)
    (mens womens : Int) : Alloc :=
  let st := minGuarantee slotDf (initAlloc valid) mens womens
  genderPhaseRun (femaleGroups slotDf) st.2.2
    (genderPhaseRun (maleGroups slotDf) st.2.1 st.1)

/-- Pure value of `calculate_slot_allocation`. -/
def calculateRun (slotDf : List SlotRow) (valid : List String)
    (mens womens : Int) : Alloc :=
  fillMissing valid
    (reallocRun slotDf (allocBeforeReallocRun slotDf valid mens womens))

/-- The §8 example roster: `M35-39` with 10 starters of which 8 finish with
ranks 1..8 (rows 0-7), and `M40-44` with 5 starters and no finishers. -/
def exC2Roster : List Competitor :=
  [⟨"a1", "M35-39", true, 1⟩, ⟨"a2", "M35-39", true, 2⟩,
   ⟨"a3", "M35-39", true, 3⟩, ⟨"a4", "M35-39", true, 4⟩,
   ⟨"a5", "M35-39", true, 5⟩, ⟨"a6", "M35-39", true, 6⟩,
   ⟨"a7", "M35-39", true, 7⟩, ⟨"a8", "M35-39", true, 8⟩,
   ⟨"a9", "M35-39", false, 9⟩, ⟨"a10", "M35-39", false, 10⟩,
   ⟨"b1", "M40-44", false, 1⟩, ⟨"b2", "M40-44", false, 2⟩,
   ⟨"b3", "M40-44", false, 3⟩, ⟨"b4", "M40-44", false, 4⟩,
   ⟨"b5", "M40-44", false, 5⟩]

/-- The §8 example ground-truth set. -/
def exC2Valid : List String := ["M35-39", "M40-44"]

/-! ### Dictionary lemmas -/

theorem dmem_iff {m : Alloc} {k : String} : dmem m k ↔ k ∈ keysOf m :=
  Iff.rfl

theorem keysOf_cons (p : String × Int) (m : Alloc) :
    keysOf (p :: m) = p.1 :: keysOf m := rfl

theorem dget?_cons (p : String × Int) (m : Alloc) (k : String) :
    dget? (p :: m) k = if p.1 = k then some p.2 else dget? m k := rfl

theorem dget?_dset_self (m : Alloc) (k : String) (v : Int) :
    dget? (dset m k v) k = some v := by
  induction m with
  | nil => simp [dset, dget?]
  | cons p rest ih =>
    by_cases h : p.1 = k
    · simp [dset, h, dget?]
    · simp [dset, h, dget?, ih]

theorem dget?_dset_ne (m : Alloc) {k k' : String} (v : Int) (h : k' ≠ k) :
    dget? (dset m k v) k' = dget? m k' := by
  induction m with
  | nil => simp [dset, dget?, Ne.symm h]
  | cons p rest ih =>
    by_cases hp : p.1 = k
    · simp [dset, hp, dget?, Ne.symm h]
    · simp [dset, hp, dget?, ih]

theorem dget?_dincr_self (m : Alloc) (k : String) (v : Int) :
    dget? (dincr m k v) k = (dget? m k).map (· + v) := by
  induction m with
  | nil => simp [dincr, dget?]
  | cons p rest ih =>
    by_cases h : p.1 = k
    · simp [dincr, h, dget?]
    · simp [dincr, h, dget?, ih]

theorem dget?_dincr_ne (m : Alloc) {k k' : String} (v : Int) (h : k' ≠ k) :
    dget? (dincr m k v) k' = dget? m k' := by
  induction m with
  | nil => simp [dincr, dget?]
  | cons p rest ih =>
    by_cases hp : p.1 = k
    · simp [dincr, hp, dget?, Ne.symm h]
    · simp [dincr, hp, dget?, ih]

theorem keysOf_dincr (m : Alloc) (k : String) (v : Int) :
    keysOf (dincr m k v) = keysOf m := by
  induction m with
  | nil => simp [dincr]
  | cons p rest ih =>
    by_cases h : p.1 = k
    · simp [dincr, h, keysOf]
    · simpa [dincr, h, keysOf] using ih

theorem keysOf_dset_mem (m : Alloc) {k : String} (v : Int)
    (h : k ∈ keysOf m) : keysOf (dset m k v) = keysOf m := by
  induction m with
  | nil => simp [keysOf] at h
  | cons p rest ih =>
    by_cases hp : p.1 = k
    · simp [dset, hp, keysOf]
    · have h' : k ∈ keysOf rest := by
        simpa [keysOf, Ne.symm hp] using h
      simpa [dset, hp, keysOf] using ih h'

theorem keysOf_dset_not_mem (m : Alloc) {k : String} (v : Int)
    (h : k ∉ keysOf m) : keysOf (dset m k v) = keysOf m ++ [k] := by
  induction m with
  | nil => simp [dset, keysOf]
  | cons p rest ih =>
    have hp : p.1 ≠ k := by
      intro hk
      exact h (by rw [keysOf_cons, hk]; exact List.mem_cons_self _ _)
    have h' : k ∉ keysOf rest := fun hk =>
      h (by rw [keysOf_cons]; exact List.mem_cons_of_mem _ hk)
    simpa [dset, hp, keysOf] using ih h'

theorem dget?_eq_none_of_not_mem {m : Alloc} {k : String}
    (h : k ∉ keysOf m) : dget? m k = none := by
  induction m with
  | nil => simp [dget?]
  | cons p rest ih =>
    have hp : p.1 ≠ k := by
      intro hk
      exact h (by rw [keysOf_cons, hk]; exact List.mem_cons_self _ _)
    have h' : k ∉ keysOf rest := fun hk =>
      h (by rw [keysOf_cons]; exact List.mem_cons_of_mem _ hk)
    simp [dget?, hp, ih h']

theorem dget?_isSome_of_mem {m : Alloc} {k : String}
    (h : k ∈ keysOf m) : ∃ v, dget? m k = some v := by
  induction m with
  | nil => simp [keysOf] at h
  | cons p rest ih =>
    by_cases hp : p.1 = k
    · exact ⟨p.2, by simp [dget?, hp]⟩
    · have h' : k ∈ keysOf rest := by simpa [keysOf, Ne.symm hp] using h
      obtain ⟨v, hv⟩ := ih h'
      exact ⟨v, by simp [dget?, hp, hv]⟩

theorem dget?_mem {m : Alloc} {k : String} {v : Int}
    (h : dget? m k = some v) : (k, v) ∈ m := by
  induction m with
  | nil => simp [dget?] at h
  | cons p rest ih =>
    by_cases hp : p.1 = k
    · rw [dget?, if_pos hp] at h
      have hv : p.2 = v := by injection h
      have hpk : p = (k, v) := by
        cases p
        simp_all
      rw [← hpk]
      exact List.mem_cons_self _ _
    · rw [dget?, if_neg hp] at h
      exact List.mem_cons_of_mem _ (ih h)

theorem mem_of_dset {m : Alloc} {k : String} {v : Int} {p : String × Int}
    (h : p ∈ dset m k v) : p ∈ m ∨ p = (k, v) := by
  induction m with
  | nil => simp [dset] at h; simp [h]
  | cons q rest ih =>
    by_cases hq : q.1 = k
    · rw [dset, if_pos hq] at h
      rcases List.mem_cons.mp h with h1 | h1
      · right; exact h1
      · left; exact List.mem_cons_of_mem _ h1
    · rw [dset, if_neg hq] at h
      rcases List.mem_cons.mp h with h1 | h1
      · left; simp [h1]
      · rcases ih h1 with h' | h'
        · left; exact List.mem_cons_of_mem _ h'
        · right; exact h'

theorem mem_of_dincr {m : Alloc} {k : String} {v : Int} {p : String × Int}
    (h : p ∈ dincr m k v) : p ∈ m ∨ ∃ w, (p.1, w) ∈ m ∧ p.2 = w + v := by
  induction m with
  | nil => simp [dincr] at h
  | cons q rest ih =>
    by_cases hq : q.1 = k
    · rw [dincr, if_pos hq] at h
      rcases List.mem_cons.mp h with h1 | h1
      · right
        exact ⟨q.2, by simp [h1], by simp [h1]⟩
      · left; exact List.mem_cons_of_mem _ h1
    · rw [dincr, if_neg hq] at h
      rcases List.mem_cons.mp h with h1 | h1
      · left; simp [h1]
      · rcases ih h1 with h' | ⟨w, hw, hpw⟩
        · left; exact List.mem_cons_of_mem _ h'
        · right; exact ⟨w, List.mem_cons_of_mem _ hw, hpw⟩

theorem nodup_keysOf_dset {m : Alloc} (k : String) (v : Int)
    (h : (keysOf m).Nodup) : (keysOf (dset m k v)).Nodup := by
  by_cases hk : k ∈ keysOf m
  · rwa [keysOf_dset_mem m v hk]
  · rw [keysOf_dset_not_mem m v hk]
    simpa [List.nodup_append] using ⟨h, hk⟩

/-! ### Sum lemmas -/

theorem sumAll_cons (p : String × Int) (m : Alloc) :
    sumAll (p :: m) = p.2 + sumAll m := by
  simp [sumAll]

theorem sumG_cons (p : String × Int) (m : Alloc) (g : String) :
    sumG (p :: m) g = (if genderOf p.1 = g then p.2 else 0) + sumG m g := by
  by_cases h : genderOf p.1 = g
  · simp [sumG, h]
  · simp [sumG, h]

theorem sumAll_dincr (m : Alloc) (k : String) (v : Int) :
    sumAll (dincr m k v) = sumAll m + (if k ∈ keysOf m then v else 0) := by
  induction m with
  | nil => simp [dincr, sumAll, keysOf]
  | cons p rest ih =>
    by_cases hp : p.1 = k
    · rw [dincr, if_pos hp, sumAll_cons, sumAll_cons]
      have hm : k ∈ keysOf (p :: rest) := by
        rw [keysOf_cons, hp]; exact List.mem_cons_self _ _
      rw [if_pos hm]
      ring
    · rw [dincr, if_neg hp, sumAll_cons, sumAll_cons, ih]
      by_cases hk : k ∈ keysOf rest
      · have hm : k ∈ keysOf (p :: rest) := by
          rw [keysOf_cons]; exact List.mem_cons_of_mem _ hk
        rw [if_pos hk, if_pos hm]; ring
      · have hm : k ∉ keysOf (p :: rest) := by
          rw [keysOf_cons]
          simp only [List.mem_cons]
          push_neg
          exact ⟨Ne.symm hp, hk⟩
        rw [if_neg hk, if_neg hm]
        ring

theorem sumG_dincr (m : Alloc) (k : String) (v : Int) (g : String) :
    sumG (dincr m k v) g =
      sumG m g + (if k ∈ keysOf m ∧ genderOf k = g then v else 0) := by
  induction m with
  | nil => simp [dincr, sumG, keysOf]
  | cons p rest ih =>
    by_cases hp : p.1 = k
    · have hmem : k ∈ keysOf (p :: rest) := by
        rw [keysOf_cons, hp]; exact List.mem_cons_self _ _
      have hand : (k ∈ keysOf (p :: rest) ∧ genderOf k = g) ↔ genderOf k = g := by
        simp [hmem]
      rw [dincr, if_pos hp, sumG_cons, sumG_cons]
      by_cases hg : genderOf k = g
      · have hg' : genderOf p.1 = g := by rw [hp]; exact hg
        rw [if_pos (hand.mpr hg)]
        simp only [hg', if_true, if_pos hg']
        ring
      · have hg' : ¬genderOf p.1 = g := by rw [hp]; exact hg
        rw [if_neg (fun hc => hg (hand.mp hc))]
        simp only [if_neg hg']
        ring
    · rw [dincr, if_neg hp, sumG_cons, sumG_cons, ih]
      by_cases hk : k ∈ keysOf rest ∧ genderOf k = g
      · have hm : k ∈ keysOf (p :: rest) ∧ genderOf k = g :=
          ⟨by rw [keysOf_cons]; exact List.mem_cons_of_mem _ hk.1, hk.2⟩
        rw [if_pos hk, if_pos hm]; ring
      · have hm : ¬(k ∈ keysOf (p :: rest) ∧ genderOf k = g) := by
          rintro ⟨hmem, hg⟩
          rw [keysOf_cons] at hmem
          rcases List.mem_cons.mp hmem with h1 | h1
          · exact hp h1.symm
          · exact hk ⟨h1, hg⟩
        rw [if_neg hk, if_neg hm]
        ring

theorem sumAll_dset (m : Alloc) (k : String) (v : Int) :
    sumAll (dset m k v) = sumAll m - dgetD m k 0 + v := by
  induction m with
  | nil => simp [dset, sumAll, dgetD, dget?]
  | cons p rest ih =>
    by_cases hp : p.1 = k
    · rw [dset, if_pos hp, sumAll_cons, sumAll_cons]
      simp only [dgetD, dget?_cons, if_pos hp, Option.getD_some]
      ring
    · rw [dset, if_neg hp, sumAll_cons, sumAll_cons, ih]
      simp only [dgetD, dget?_cons, if_neg hp]
      ring

theorem sumG_dset (m : Alloc) (k : String) (v : Int) (g : String) :
    sumG (dset m k v) g =
      if genderOf k = g then sumG m g - dgetD m k 0 + v else sumG m g := by
  induction m with
  | nil =>
    by_cases hg : genderOf k = g
    · simp [dset, sumG, hg, dgetD, dget?]
    · simp [dset, sumG, hg, dgetD, dget?]
  | cons p rest ih =>
    by_cases hp : p.1 = k
    · rw [dset, if_pos hp, sumG_cons, sumG_cons]
      simp only [dgetD, dget?_cons, if_pos hp, Option.getD_some]
      by_cases hg : genderOf k = g
      · have hg' : genderOf p.1 = g := by rw [hp]; exact hg
        rw [if_pos hg, if_pos hg, if_pos hg']
        ring
      · have hg' : ¬genderOf p.1 = g := by rw [hp]; exact hg
        rw [if_neg hg, if_neg hg, if_neg hg']
    · rw [dset, if_neg hp, sumG_cons, sumG_cons, ih]
      simp only [dgetD, dget?_cons, if_neg hp]
      by_cases hg : genderOf k = g
      · rw [if_pos hg, if_pos hg]
        ring
      · rw [if_neg hg, if_neg hg]

/-! ### incrFold lemmas -/

theorem incrFold_nil (a : Alloc) : incrFold [] a = a := rfl

theorem incrFold_cons (p : String × Int) (l : List (String × Int)) (a : Alloc) :
    incrFold (p :: l) a = incrFold l (dincr a p.1 p.2) := rfl

theorem keysOf_incrFold (l : List (String × Int)) (a : Alloc) :
    keysOf (incrFold l a) = keysOf a := by
  induction l generalizing a with
  | nil => rfl
  | cons p l ih => rw [incrFold_cons, ih, keysOf_dincr]

theorem dget?_incrFold (l : List (String × Int)) (a : Alloc) (k : String) :
    dget? (incrFold l a) k =
      (dget? a k).map
        (· + ((l.filter fun p => decide (p.1 = k)).map Prod.snd).sum) := by
  induction l generalizing a with
  | nil =>
    rw [incrFold_nil]
    cases dget? a k <;> simp
  | cons p l ih =>
    rw [incrFold_cons, ih]
    by_cases hp : p.1 = k
    · rw [hp, dget?_dincr_self]
      cases dget? a k <;> simp [hp, add_assoc]
    · rw [dget?_dincr_ne a p.2 (Ne.symm hp)]
      simp [hp]

theorem sumAll_incrFold (l : List (String × Int)) (a : Alloc)
    (h : ∀ p ∈ l, p.1 ∈ keysOf a) :
    sumAll (incrFold l a) = sumAll a + (l.map Prod.snd).sum := by
  induction l generalizing a with
  | nil => simp [incrFold_nil]
  | cons p l ih =>
    rw [incrFold_cons, ih _ fun q hq => by
      rw [keysOf_dincr]; exact h q (List.mem_cons_of_mem _ hq)]
    rw [sumAll_dincr, if_pos (h p (List.mem_cons_self _ _))]
    simp
    ring

theorem sumG_incrFold (l : List (String × Int)) (a : Alloc) (g : String)
    (h : ∀ p ∈ l, p.1 ∈ keysOf a ∧ genderOf p.1 = g) :
    sumG (incrFold l a) g = sumG a g + (l.map Prod.snd).sum := by
  induction l generalizing a with
  | nil => simp [incrFold_nil]
  | cons p l ih =>
    rw [incrFold_cons, ih _ fun q hq => by
      rw [keysOf_dincr]; exact h q (List.mem_cons_of_mem _ hq)]
    rw [sumG_dincr, if_pos (h p (List.mem_cons_self _ _))]
    simp
    ring

theorem sumG_incrFold_other (l : List (String × Int)) (a : Alloc) (g : String)
    (h : ∀ p ∈ l, genderOf p.1 ≠ g) :
    sumG (incrFold l a) g = sumG a g := by
  induction l generalizing a with
  | nil => simp [incrFold_nil]
  | cons p l ih =>
    rw [incrFold_cons, ih _ fun q hq => h q (List.mem_cons_of_mem _ hq)]
    rw [sumG_dincr, if_neg (by simp [h p (List.mem_cons_self _ _)])]
    simp

theorem nonneg_incrFold (l : List (String × Int)) (a : Alloc)
    (ha : ∀ p ∈ a, 0 ≤ p.2) (hl : ∀ p ∈ l, 0 ≤ p.2) :
    ∀ p ∈ incrFold l a, 0 ≤ p.2 := by
  induction l generalizing a with
  | nil => simpa [incrFold_nil] using ha
  | cons p l ih =>
    rw [incrFold_cons]
    refine ih _ ?_ fun q hq => hl q (List.mem_cons_of_mem _ hq)
    intro q hq
    rcases mem_of_dincr hq with h' | ⟨w, hw, hqw⟩
    · exact ha q h'
    · rw [hqw]
      exact add_nonneg (ha _ hw) (hl p (List.mem_cons_self _ _))

theorem dgetD_incrFold_le (l : List (String × Int)) (a : Alloc) (k : String)
    (h : ∀ p ∈ l, 0 ≤ p.2) :
    dgetD a k 0 ≤ dgetD (incrFold l a) k 0 := by
  rw [dgetD, dgetD, dget?_incrFold]
  cases ho : dget? a k with
  | none => simp
  | some v =>
    have hs : 0 ≤ ((l.filter fun p => decide (p.1 = k)).map Prod.snd).sum := by
      apply List.sum_nonneg
      intro x hx
      obtain ⟨p, hp, hpx⟩ := List.mem_map.mp hx
      rw [← hpx]
      exact h p (List.mem_filter.mp hp).1
    simp only [Option.map_some', Option.getD_some]
    omega

theorem floorLoop_eq (props : List (String × ℚ)) (alloc : Alloc) (b : Int) :
    floorLoop props alloc b =
      (incrFold (props.map fun p => (p.1, truncQ p.2)) alloc,
       b - (props.map fun p => truncQ p.2).sum) := by
  induction props generalizing alloc b with
  | nil => simp [floorLoop, incrFold_nil]
  | cons p props ih =>
    have step : floorLoop (p :: props) alloc b =
        floorLoop props (dincr alloc p.1 (truncQ p.2)) (b - truncQ p.2) := rfl
    rw [step, ih]
    simp only [List.map_cons, List.sum_cons, incrFold_cons, Prod.mk.injEq]
    refine ⟨trivial, ?_⟩
    ring

theorem awardLoop_eq (ranked : List (String × ℚ)) (n : Nat) (alloc : Alloc) :
    awardLoop ranked n alloc =
      incrFold ((ranked.take n).map fun p => (p.1, (1 : Int))) alloc := by
  rw [awardLoop, incrFold, List.foldl_map]

/-! ### The `Option` layer always succeeds: every division is guarded -/

theorem mapM_eq_some_map {α β : Type} (f : α → Option β) (g : α → β)
    (l : List α) (h : ∀ a ∈ l, f a = some (g a)) :
    l.mapM f = some (l.map g) := by
  induction l with
  | nil => rfl
  | cons a l ih =>
    rw [List.mapM_cons, h a (List.mem_cons_self _ _),
      ih fun b hb => h b (List.mem_cons_of_mem _ hb)]
    rfl

theorem foldlM_eq_some_foldl {σ α : Type} (f : σ → α → Option σ)
    (g : σ → α → σ) (h : ∀ s a, f s a = some (g s a)) (l : List α) (s : σ) :
    l.foldlM f s = some (l.foldl g s) := by
  induction l generalizing s with
  | nil => rfl
  | cons a l ih =>
    rw [List.foldlM_cons, h]
    exact ih _

theorem genderPhase_eq (groups : List SlotRow) (budget : Int) (alloc : Alloc) :
    genderPhase groups budget alloc = some (genderPhaseRun groups budget alloc) := by
  simp only [genderPhase, genderPhaseRun]
  by_cases h1 : 0 < budget ∧ groups ≠ []
  · rw [if_pos h1, if_pos h1]
    by_cases h2 : 0 < (groups.map fun r => (r.starters_count : Int)).sum
    · rw [if_pos h2, if_pos h2]
      have htot : (((groups.map fun r => (r.starters_count : Int)).sum : Int) : ℚ) ≠ 0 :=
        Int.cast_ne_zero.mpr (ne_of_gt h2)
      have hmap : (groups.mapM fun r => do
            let q ← checkedDiv (r.starters_count : ℚ)
              (((groups.map fun r => (r.starters_count : Int)).sum : Int) : ℚ)
            pure (r.age_group, q * (budget : ℚ)))
          = some (groups.map fun r =>
              (r.age_group,
               (r.starters_count : ℚ) /
                 (((groups.map fun r => (r.starters_count : Int)).sum : Int) : ℚ) *
                 (budget : ℚ))) := by
        apply mapM_eq_some_map
        intro r hr
        rw [checkedDiv, if_neg htot]
        rfl
      rw [hmap]
      simp only [Option.bind_eq_bind, Option.some_bind]
      by_cases h3 : 0 < (floorLoop (groups.map fun r =>
          (r.age_group,
           (r.starters_count : ℚ) /
             (((groups.map fun r => (r.starters_count : Int)).sum : Int) : ℚ) *
             (budget : ℚ))) alloc budget).2
      · rw [if_pos h3, if_pos h3]; rfl
      · rw [if_neg h3, if_neg h3]; rfl
    · rw [if_neg h2, if_neg h2]; rfl
  · rw [if_neg h1, if_neg h1]; rfl

theorem rankedMapM_eq (l : List SlotRow) (alloc1 : Alloc) :
    (l.mapM fun t => do
        let q ← checkedDiv (t.starters_count : ℚ)
          ((max 1 (dgetD alloc1 t.age_group 1) : Int) : ℚ)
        pure (t.age_group, q))
      = some (l.map fun t =>
          (t.age_group,
           (t.starters_count : ℚ) /
             ((max 1 (dgetD alloc1 t.age_group 1) : Int) : ℚ))) := by
  apply mapM_eq_some_map
  intro t ht
  have hpos : (0 : Int) < max 1 (dgetD alloc1 t.age_group 1) :=
    lt_of_lt_of_le one_pos (le_max_left _ _)
  rw [checkedDiv, if_neg (Int.cast_ne_zero.mpr (ne_of_gt hpos))]
  rfl

theorem reallocStep_eq (mg fg : List SlotRow) (alloc : Alloc) (row : SlotRow) :
    reallocStep mg fg alloc row = some (reallocStepRun mg fg alloc row) := by
  simp only [reallocStep, reallocStepRun]
  by_cases h1 : 0 < row.starters_count ∧ row.finishers_count = 0 ∧
      dmem alloc row.age_group ∧ 0 < dgetD alloc row.age_group 0
  · rw [if_pos h1, if_pos h1]
    by_cases h2 : ((if row.gender = "M" then mg else fg).filter
        fun t => decide (0 < t.finishers_count)) = []
    · rw [if_pos h2, if_pos h2]; rfl
    · rw [if_neg h2, if_neg h2, rankedMapM_eq]
      rfl
  · rw [if_neg h1, if_neg h1]; rfl

theorem reallocPhase_eq (slotDf : List SlotRow) (alloc : Alloc) :
    reallocPhase slotDf alloc = some (reallocRun slotDf alloc) :=
  foldlM_eq_some_foldl _ _
    (fun s a => reallocStep_eq (maleGroups slotDf) (femaleGroups slotDf) s a)
    slotDf alloc

theorem allocBeforeRealloc_eq (slotDf : List SlotRow) (valid : List String)
    (mens womens : Int) :
    allocBeforeRealloc slotDf valid mens womens =
      some (allocBeforeReallocRun slotDf valid mens womens) := by
  rw [allocBeforeRealloc, allocBeforeReallocRun, genderPhase_eq]
  simp only [Option.bind_eq_bind, Option.some_bind]
  rw [genderPhase_eq]

theorem calculate_eq (slotDf : List SlotRow) (valid : List String)
    (mens womens : Int) :
    calculate_slot_allocation slotDf valid mens womens =
      some (calculateRun slotDf valid mens womens) := by
  rw [calculate_slot_allocation, allocBeforeRealloc_eq]
  simp only [Option.bind_eq_bind, Option.some_bind]
  rw [reallocPhase_eq]
  rfl

/-! ### initAlloc -/

theorem mem_keysOf_dset (m : Alloc) (k k' : String) (v : Int) :
    k ∈ keysOf (dset m k' v) ↔ k ∈ keysOf m ∨ k = k' := by
  by_cases h : k' ∈ keysOf m
  · rw [keysOf_dset_mem m v h]
    exact ⟨Or.inl, fun hc => hc.elim id fun hk => hk ▸ h⟩
  · rw [keysOf_dset_not_mem m v h]
    simp

theorem keysOf_initAlloc_aux (valid : List String) (acc : Alloc) (k : String) :
    k ∈ keysOf (valid.foldl (fun m ag => dset m ag 0) acc) ↔
      k ∈ keysOf acc ∨ k ∈ valid := by
  induction valid generalizing acc with
  | nil => simp
  | cons ag valid ih =>
    rw [List.foldl_cons, ih, mem_keysOf_dset]
    simp [or_assoc]

theorem mem_keysOf_initAlloc (valid : List String) (k : String) :
    k ∈ keysOf (initAlloc valid) ↔ k ∈ valid := by
  rw [initAlloc, keysOf_initAlloc_aux]
  simp [keysOf]

theorem initAlloc_val_aux (valid : List String) (acc : Alloc)
    (hacc : ∀ p ∈ acc, p.2 = 0) :
    ∀ p ∈ valid.foldl (fun m ag => dset m ag 0) acc, p.2 = 0 := by
  induction valid generalizing acc with
  | nil => simpa using hacc
  | cons ag valid ih =>
    rw [List.foldl_cons]
    refine ih _ fun p hp => ?_
    rcases mem_of_dset hp with h | h
    · exact hacc p h
    · rw [h]

theorem dget?_initAlloc {valid : List String} {k : String} (h : k ∈ valid) :
    dget? (initAlloc valid) k = some 0 := by
  have hk : k ∈ keysOf (initAlloc valid) := (mem_keysOf_initAlloc valid k).mpr h
  obtain ⟨v, hv⟩ := dget?_isSome_of_mem hk
  have : v = 0 := initAlloc_val_aux valid [] (by simp) (k, v) (dget?_mem hv)
  rw [hv, this]

theorem nodup_keysOf_initAlloc_aux (valid : List String) (acc : Alloc)
    (hacc : (keysOf acc).Nodup) :
    (keysOf (valid.foldl (fun m ag => dset m ag 0) acc)).Nodup := by
  induction valid generalizing acc with
  | nil => simpa using hacc
  | cons ag valid ih =>
    rw [List.foldl_cons]
    exact ih _ (nodup_keysOf_dset ag 0 hacc)

theorem nodup_keysOf_initAlloc (valid : List String) :
    (keysOf (initAlloc valid)).Nodup :=
  nodup_keysOf_initAlloc_aux valid [] (by simp [keysOf])

/-! ### minGuarantee -/

theorem minGuarantee_nil (alloc : Alloc) (m w : Int) :
    minGuarantee [] alloc m w = (alloc, m, w) := rfl

theorem minGuarantee_cons (row : SlotRow) (rest : List SlotRow) (alloc : Alloc)
    (m w : Int) :
    minGuarantee (row :: rest) alloc m w =
      if row.starters_count = 0 then minGuarantee rest alloc m w
      else
        minGuarantee rest (dset alloc row.age_group 1)
          (if row.gender = "M" then m - 1 else m)
          (if row.gender = "M" then w else w - 1) := by
  rw [minGuarantee, List.foldl_cons]
  by_cases h : row.starters_count = 0
  · rw [if_pos h, if_pos h]
    rfl
  · rw [if_neg h, if_neg h]
    rfl

theorem minGuarantee_budget (slotDf : List SlotRow) (alloc : Alloc) (m w : Int) :
    (minGuarantee slotDf alloc m w).2.1 = m - ((maleGroups slotDf).length : Int) ∧
    (minGuarantee slotDf alloc m w).2.2 =
      w - (((slotDf.filter fun r =>
        decide (¬r.gender = "M" ∧ 0 < r.starters_count)).length) : Int) := by
  simp only [maleGroups]
  induction slotDf generalizing alloc m w with
  | nil => simp [minGuarantee_nil]
  | cons row rest ih =>
    rw [minGuarantee_cons]
    by_cases h0 : row.starters_count = 0
    · rw [if_pos h0, List.filter_cons, List.filter_cons,
        if_neg (by simp [h0]), if_neg (by simp [h0])]
      exact ih alloc m w
    · have hpos : 0 < row.starters_count := Nat.pos_of_ne_zero h0
      rw [if_neg h0]
      by_cases hg : row.gender = "M"
      · rw [if_pos hg, if_pos hg]
        obtain ⟨ihm, ihf⟩ := ih (dset alloc row.age_group 1) (m - 1) w
        constructor
        · rw [ihm, List.filter_cons, if_pos (by simp [hg, hpos])]
          push_cast [List.length_cons]
          ring
        · rw [ihf, List.filter_cons, if_neg (by simp [hg])]
      · rw [if_neg hg, if_neg hg]
        obtain ⟨ihm, ihf⟩ := ih (dset alloc row.age_group 1) m (w - 1)
        constructor
        · rw [ihm, List.filter_cons, if_neg (by simp [hg])]
        · rw [ihf, List.filter_cons, if_pos (by simp [hg, hpos])]
          push_cast [List.length_cons]
          ring

theorem minGuarantee_get_preserve_one (slotDf : List SlotRow) (alloc : Alloc)
    (m w : Int) {k : String} (h : dget? alloc k = some 1) :
    dget? (minGuarantee slotDf alloc m w).1 k = some 1 := by
  induction slotDf generalizing alloc m w with
  | nil => simpa [minGuarantee_nil] using h
  | cons row rest ih =>
    rw [minGuarantee_cons]
    by_cases h0 : row.starters_count = 0
    · rw [if_pos h0]; exact ih alloc m w h
    · rw [if_neg h0]
      apply ih
      by_cases hk : row.age_group = k
      · rw [hk, dget?_dset_self]
      · rw [dget?_dset_ne _ _ (Ne.symm hk)]
        exact h

theorem minGuarantee_get_of_started (slotDf : List SlotRow) (alloc : Alloc)
    (m w : Int) {r : SlotRow} (hr : r ∈ slotDf) (hst : 0 < r.starters_count) :
    dget? (minGuarantee slotDf alloc m w).1 r.age_group = some 1 := by
  induction slotDf generalizing alloc m w with
  | nil => simp at hr
  | cons row rest ih =>
    rw [minGuarantee_cons]
    rcases List.mem_cons.mp hr with hr1 | hr1
    · rw [← hr1]
      rw [if_neg (by omega)]
      exact minGuarantee_get_preserve_one rest _ _ _ (dget?_dset_self _ _ _)
    · by_cases h0 : row.starters_count = 0
      · rw [if_pos h0]; exact ih _ _ _ hr1
      · rw [if_neg h0]; exact ih _ _ _ hr1

theorem minGuarantee_get_untouched (slotDf : List SlotRow) (alloc : Alloc)
    (m w : Int) {k : String}
    (h : ∀ r ∈ slotDf, r.age_group = k → r.starters_count = 0) :
    dget? (minGuarantee slotDf alloc m w).1 k = dget? alloc k := by
  induction slotDf generalizing alloc m w with
  | nil => simp [minGuarantee_nil]
  | cons row rest ih =>
    rw [minGuarantee_cons]
    by_cases h0 : row.starters_count = 0
    · rw [if_pos h0]
      exact ih _ _ _ fun r hr => h r (List.mem_cons_of_mem _ hr)
    · rw [if_neg h0]
      have hk : row.age_group ≠ k := fun hc =>
        h0 (h row (List.mem_cons_self _ _) hc)
      rw [ih _ _ _ fun r hr => h r (List.mem_cons_of_mem _ hr),
        dget?_dset_ne _ _ (Ne.symm hk)]

theorem keysOf_minGuarantee (slotDf : List SlotRow) (alloc : Alloc) (m w : Int)
    (h : ∀ r ∈ slotDf, r.age_group ∈ keysOf alloc) :
    keysOf (minGuarantee slotDf alloc m w).1 = keysOf alloc := by
  induction slotDf generalizing alloc m w with
  | nil => simp [minGuarantee_nil]
  | cons row rest ih =>
    rw [minGuarantee_cons]
    by_cases h0 : row.starters_count = 0
    · rw [if_pos h0]
      exact ih _ _ _ fun r hr => h r (List.mem_cons_of_mem _ hr)
    · rw [if_neg h0]
      rw [ih _ _ _ fun r hr => ?_, keysOf_dset_mem _ _ (h row (List.mem_cons_self _ _))]
      rw [keysOf_dset_mem _ _ (h row (List.mem_cons_self _ _))]
      exact h r (List.mem_cons_of_mem _ hr)

theorem nonneg_minGuarantee (slotDf : List SlotRow) (alloc : Alloc) (m w : Int)
    (h : ∀ p ∈ alloc, 0 ≤ p.2) :
    ∀ p ∈ (minGuarantee slotDf alloc m w).1, 0 ≤ p.2 := by
  induction slotDf generalizing alloc m w with
  | nil => simpa [minGuarantee_nil] using h
  | cons row rest ih =>
    rw [minGuarantee_cons]
    by_cases h0 : row.starters_count = 0
    · rw [if_pos h0]; exact ih _ _ _ h
    · rw [if_neg h0]
      refine ih _ _ _ fun p hp => ?_
      rcases mem_of_dset hp with h1 | h1
      · exact h p h1
      · rw [h1]; omega

theorem sumG_minGuarantee (slotDf : List SlotRow) (alloc : Alloc) (m w : Int)
    (g : String)
    (hvals : ∀ r ∈ slotDf, 0 < r.starters_count →
      dget? alloc r.age_group = some 0)
    (hnd : (slotDf.map SlotRow.age_group).Nodup) :
    sumG (minGuarantee slotDf alloc m w).1 g
      = sumG alloc g + ((slotDf.filter fun r =>
          decide (genderOf r.age_group = g ∧ 0 < r.starters_count)).length : Int) := by
  induction slotDf generalizing alloc m w with
  | nil => simp [minGuarantee_nil]
  | cons row rest ih =>
    rw [minGuarantee_cons]
    rw [List.map_cons, List.nodup_cons] at hnd
    by_cases h0 : row.starters_count = 0
    · rw [if_pos h0]
      have hnot : ¬(0 < row.starters_count) := by omega
      simp only [List.filter_cons, decide_eq_true_eq, hnot, and_false,
        decide_False]
      exact ih _ _ _ (fun r hr => hvals r (List.mem_cons_of_mem _ hr)) hnd.2
    · rw [if_neg h0]
      have hpos : 0 < row.starters_count := Nat.pos_of_ne_zero h0
      have hrest : ∀ r ∈ rest, 0 < r.starters_count →
          dget? (dset alloc row.age_group 1) r.age_group = some 0 := by
        intro r hr hst
        have hne : r.age_group ≠ row.age_group := fun hc =>
          hnd.1 (hc ▸ List.mem_map_of_mem SlotRow.age_group hr)
        rw [dget?_dset_ne _ _ hne]
        exact hvals r (List.mem_cons_of_mem _ hr) hst
      rw [ih _ _ _ hrest hnd.2, sumG_dset]
      have hget : dgetD alloc row.age_group 0 = 0 := by
        rw [dgetD, hvals row (List.mem_cons_self _ _) hpos]
        rfl
      by_cases hg : genderOf row.age_group = g
      · rw [if_pos hg]
        simp only [List.filter_cons, decide_eq_true_eq, hg, hpos, and_true,
          true_and, decide_True, List.length_cons]
        rw [hget]
        push_cast [List.length_cons]
        ring
      · rw [if_neg hg, List.filter_cons, if_neg (by simp [hg])]

/-! ### Rational bounds for the proportional phase -/

theorem truncQ_nonneg {q : ℚ} (h : 0 ≤ q) : 0 ≤ truncQ q := by
  rw [truncQ, if_pos h]
  exact Int.floor_nonneg.mpr h

theorem truncQ_le {q : ℚ} (h : 0 ≤ q) : (truncQ q : ℚ) ≤ q := by
  rw [truncQ, if_pos h]
  exact Int.floor_le q

theorem sub_truncQ_lt_one {q : ℚ} (h : 0 ≤ q) : q - (truncQ q : ℚ) < 1 := by
  rw [truncQ, if_pos h]
  have h2 := Int.sub_one_lt_floor q
  linarith

theorem sum_lt_length_of_lt_one (l : List ℚ) (hne : l ≠ [])
    (h : ∀ x ∈ l, x < 1) : l.sum < (l.length : ℚ) := by
  induction l with
  | nil => exact absurd rfl hne
  | cons a l ih =>
    rcases eq_or_ne l [] with rfl | hl
    · simpa using h a (List.mem_cons_self _ _)
    · have h2 := ih hl fun x hx => h x (List.mem_cons_of_mem _ hx)
      have ha := h a (List.mem_cons_self _ _)
      rw [List.sum_cons, List.length_cons]
      push_cast
      linarith

theorem sum_map_sub_q (l : List ℚ) (f g : ℚ → ℚ) :
    (l.map fun x => f x - g x).sum = (l.map f).sum - (l.map g).sum := by
  induction l with
  | nil => simp
  | cons a l ih =>
    simp only [List.map_cons, List.sum_cons, ih]
    ring

theorem cast_sum_truncQ (l : List ℚ) :
    (((l.map truncQ).sum : Int) : ℚ) = (l.map fun x => (truncQ x : ℚ)).sum := by
  rw [Int.cast_list_sum, List.map_map]
  rfl

theorem sum_truncQ_le_sum (l : List ℚ) (h : ∀ x ∈ l, 0 ≤ x) :
    (((l.map truncQ).sum : Int) : ℚ) ≤ l.sum := by
  rw [cast_sum_truncQ]
  have h2 : (l.map fun x => (truncQ x : ℚ)).sum ≤ (l.map id).sum :=
    List.sum_le_sum fun x hx => truncQ_le (h x hx)
  simpa using h2

theorem sum_sub_truncQ_lt (l : List ℚ) (hne : l ≠ []) (h : ∀ x ∈ l, 0 ≤ x) :
    l.sum - (((l.map truncQ).sum : Int) : ℚ) < (l.length : ℚ) := by
  have h1 : (l.map fun x => x - (truncQ x : ℚ)).sum
      = l.sum - (((l.map truncQ).sum : Int) : ℚ) := by
    rw [sum_map_sub_q l (fun x => x) (fun x => (truncQ x : ℚ)), cast_sum_truncQ]
    simp
  have h2 : (l.map fun x => x - (truncQ x : ℚ)).sum
      < ((l.map fun x => x - (truncQ x : ℚ)).length : ℚ) := by
    apply sum_lt_length_of_lt_one
    · simpa using hne
    · intro x hx
      obtain ⟨y, hy, hxy⟩ := List.mem_map.mp hx
      rw [← hxy]
      exact sub_truncQ_lt_one (h y hy)
  rw [h1, List.length_map] at h2
  exact h2

theorem sum_map_one {α : Type} (l : List α) :
    (l.map fun _ => (1 : Int)).sum = (l.length : Int) := by
  induction l with
  | nil => simp
  | cons a l ih =>
    simp only [List.map_cons, List.sum_cons, ih, List.length_cons]
    push_cast
    ring

theorem sum_truncQ_nonneg (l : List ℚ) (h : ∀ x ∈ l, 0 ≤ x) :
    0 ≤ (l.map truncQ).sum := by
  apply List.sum_nonneg
  intro x hx
  obtain ⟨y, hy, hxy⟩ := List.mem_map.mp hx
  rw [← hxy]
  exact truncQ_nonneg (h y hy)

/-! ### The proportional + largest-remainder block -/

theorem sumG_propAward (props : List (String × ℚ)) (alloc : Alloc)
    (budget : Int) (g : String)
    (hk : ∀ p ∈ props, p.1 ∈ keysOf alloc)
    (hgg : ∀ p ∈ props, genderOf p.1 = g)
    (hpos : ∀ p ∈ props, 0 ≤ p.2)
    (hsum : (props.map Prod.snd).sum = (budget : ℚ))
    (hne : props ≠ []) :
    sumG (if 0 < (floorLoop props alloc budget).2 then
        awardLoop (sortDescQ (props.map fun p => (p.1, p.2 - (truncQ p.2 : ℚ))))
          (floorLoop props alloc budget).2.toNat (floorLoop props alloc budget).1
      else (floorLoop props alloc budget).1) g = sumG alloc g + budget := by
  have hval : ∀ x ∈ props.map Prod.snd, 0 ≤ x := by
    intro x hx
    obtain ⟨p, hp, hpx⟩ := List.mem_map.mp hx
    rw [← hpx]
    exact hpos p hp
  have hS_le : ((props.map Prod.snd).map truncQ).sum ≤ budget := by
    have := sum_truncQ_le_sum (props.map Prod.snd) hval
    rw [hsum] at this
    exact_mod_cast this
  have hS_lt : budget - ((props.map Prod.snd).map truncQ).sum
      < (props.length : Int) := by
    have := sum_sub_truncQ_lt (props.map Prod.snd) (by simpa using hne) hval
    rw [hsum, List.length_map] at this
    exact_mod_cast this
  have hmapS : (props.map fun p => truncQ p.2) = (props.map Prod.snd).map truncQ := by
    rw [List.map_map]
    rfl
  have hsum1 : sumG (floorLoop props alloc budget).1 g
      = sumG alloc g + ((props.map Prod.snd).map truncQ).sum := by
    rw [floorLoop_eq]
    rw [sumG_incrFold _ _ _ ?_]
    · rw [List.map_map, List.map_map]
      rfl
    · intro p hp
      obtain ⟨p', hp', hpp⟩ := List.mem_map.mp hp
      rw [← hpp]
      exact ⟨hk p' hp', hgg p' hp'⟩
  have hbud : (floorLoop props alloc budget).2
      = budget - ((props.map Prod.snd).map truncQ).sum := by
    rw [floorLoop_eq, hmapS]
  by_cases hrem : 0 < (floorLoop props alloc budget).2
  · rw [if_pos hrem]
    rw [awardLoop_eq]
    have hkeys2 : keysOf (floorLoop props alloc budget).1 = keysOf alloc := by
      rw [floorLoop_eq, keysOf_incrFold]
    rw [sumG_incrFold _ _ _ ?_]
    · rw [hsum1]
      have hlen : ((sortDescQ (props.map fun p => (p.1, p.2 - (truncQ p.2 : ℚ)))).take
          (floorLoop props alloc budget).2.toNat).length
          = (floorLoop props alloc budget).2.toNat := by
        rw [List.length_take]
        apply Nat.min_eq_left
        rw [sortDescQ, List.length_insertionSort, List.length_map]
        rw [hbud] at hrem ⊢
        omega
      have haward : (List.map Prod.snd
            (List.map (fun p : String × ℚ => (p.1, (1 : Int)))
              (List.take (floorLoop props alloc budget).2.toNat
                (sortDescQ (List.map (fun p => (p.1, p.2 - (truncQ p.2 : ℚ)))
                  props))))).sum
          = ((floorLoop props alloc budget).2.toNat : Int) := by
        rw [List.map_map,
          show (Prod.snd ∘ fun p : String × ℚ => (p.1, (1 : Int)))
              = fun _ => (1 : Int) from rfl,
          sum_map_one, hlen]
      rw [haward]
      rw [hbud] at hrem ⊢
      omega
    · intro p hp
      obtain ⟨p', hp', hpp⟩ := List.mem_map.mp hp
      have hmem : p' ∈ sortDescQ (props.map fun p => (p.1, p.2 - (truncQ p.2 : ℚ))) :=
        List.mem_of_mem_take hp'
      rw [sortDescQ, List.mem_insertionSort] at hmem
      obtain ⟨p'', hp'', hpp'⟩ := List.mem_map.mp hmem
      rw [← hpp]
      constructor
      · rw [hkeys2]
        have : p'.1 = p''.1 := by rw [← hpp']
        rw [this]
        exact hk p'' hp''
      · have : p'.1 = p''.1 := by rw [← hpp']
        rw [this]
        exact hgg p'' hp''
  · rw [if_neg hrem]
    rw [hsum1]
    rw [hbud] at hrem
    omega

theorem sumG_propAward_other (props : List (String × ℚ)) (alloc : Alloc)
    (budget : Int) (g : String)
    (hgg : ∀ p ∈ props, genderOf p.1 ≠ g) :
    sumG (if 0 < (floorLoop props alloc budget).2 then
        awardLoop (sortDescQ (props.map fun p => (p.1, p.2 - (truncQ p.2 : ℚ))))
          (floorLoop props alloc budget).2.toNat (floorLoop props alloc budget).1
      else (floorLoop props alloc budget).1) g = sumG alloc g := by
  have hfl : sumG (floorLoop props alloc budget).1 g = sumG alloc g := by
    rw [floorLoop_eq]
    apply sumG_incrFold_other
    intro p hp
    obtain ⟨p', hp', hpp⟩ := List.mem_map.mp hp
    rw [← hpp]
    exact hgg p' hp'
  by_cases hrem : 0 < (floorLoop props alloc budget).2
  · rw [if_pos hrem, awardLoop_eq]
    rw [sumG_incrFold_other _ _ _ ?_, hfl]
    intro p hp
    obtain ⟨p', hp', hpp⟩ := List.mem_map.mp hp
    have hmem : p' ∈ sortDescQ (props.map fun p => (p.1, p.2 - (truncQ p.2 : ℚ))) :=
      List.mem_of_mem_take hp'
    rw [sortDescQ, List.mem_insertionSort] at hmem
    obtain ⟨p'', hp'', hpp'⟩ := List.mem_map.mp hmem
    rw [← hpp, show p'.1 = p''.1 from by rw [← hpp']]
    exact hgg p'' hp''
  · rw [if_neg hrem]
    exact hfl

theorem keysOf_propAward (props : List (String × ℚ)) (alloc : Alloc)
    (budget : Int) :
    keysOf (if 0 < (floorLoop props alloc budget).2 then
        awardLoop (sortDescQ (props.map fun p => (p.1, p.2 - (truncQ p.2 : ℚ))))
          (floorLoop props alloc budget).2.toNat (floorLoop props alloc budget).1
      else (floorLoop props alloc budget).1) = keysOf alloc := by
  have hfl : keysOf (floorLoop props alloc budget).1 = keysOf alloc := by
    rw [floorLoop_eq, keysOf_incrFold]
  by_cases hrem : 0 < (floorLoop props alloc budget).2
  · rw [if_pos hrem, awardLoop_eq, keysOf_incrFold, hfl]
  · rw [if_neg hrem, hfl]

theorem keysOf_genderPhaseRun (groups : List SlotRow) (budget : Int)
    (alloc : Alloc) :
    keysOf (genderPhaseRun groups budget alloc) = keysOf alloc := by
  rw [genderPhaseRun]
  by_cases h1 : 0 < budget ∧ groups ≠ []
  · rw [if_pos h1]
    by_cases h2 : 0 < (groups.map fun r => (r.starters_count : Int)).sum
    · rw [if_pos h2]
      exact keysOf_propAward _ _ _
    · rw [if_neg h2]
  · rw [if_neg h1]

theorem sumG_genderPhaseRun (groups : List SlotRow) (budget : Int)
    (alloc : Alloc) (g : String)
    (hg : ∀ r ∈ groups, genderOf r.age_group = g)
    (hk : ∀ r ∈ groups, r.age_group ∈ keysOf alloc)
    (hst : ∀ r ∈ groups, 0 < r.starters_count) :
    sumG (genderPhaseRun groups budget alloc) g =
      sumG alloc g + (if 0 < budget ∧ groups ≠ [] then budget else 0) := by
  rw [genderPhaseRun]
  by_cases h1 : 0 < budget ∧ groups ≠ []
  · rw [if_pos h1, if_pos h1]
    have hT : 0 < (groups.map fun r => (r.starters_count : Int)).sum := by
      apply List.sum_pos
      · intro x hx
        obtain ⟨r, hr, hrx⟩ := List.mem_map.mp hx
        rw [← hrx]
        exact_mod_cast hst r hr
      · simpa using h1.2
    rw [if_pos hT]
    apply sumG_propAward
    · intro p hp
      obtain ⟨r, hr, hrp⟩ := List.mem_map.mp hp
      rw [← hrp]
      exact hk r hr
    · intro p hp
      obtain ⟨r, hr, hrp⟩ := List.mem_map.mp hp
      rw [← hrp]
      exact hg r hr
    · intro p hp
      obtain ⟨r, hr, hrp⟩ := List.mem_map.mp hp
      rw [← hrp]
      have h0 : (0 : ℚ) ≤ (r.starters_count : ℚ) := Nat.cast_nonneg _
      have hTq : (0 : ℚ) < (((groups.map fun r => (r.starters_count : Int)).sum : Int) : ℚ) := by
        exact_mod_cast hT
      have hbq : (0 : ℚ) ≤ (budget : ℚ) := by
        have := h1.1
        exact_mod_cast le_of_lt this
      positivity
    · rw [List.map_map]
      have heq : ((Prod.snd : String × ℚ → ℚ) ∘ fun r : SlotRow =>
          (r.age_group,
           (r.starters_count : ℚ) /
             (((groups.map fun r => (r.starters_count : Int)).sum : Int) : ℚ) *
             (budget : ℚ)))
          = fun r : SlotRow =>
            (r.starters_count : ℚ) /
              (((groups.map fun r => (r.starters_count : Int)).sum : Int) : ℚ) *
              (budget : ℚ) := rfl
      rw [heq]
      have h3 : (groups.map fun r : SlotRow =>
          (r.starters_count : ℚ) /
            (((groups.map fun r => (r.starters_count : Int)).sum : Int) : ℚ) *
            (budget : ℚ))
          = groups.map fun r : SlotRow =>
            (r.starters_count : ℚ) *
              ((budget : ℚ) /
                (((groups.map fun r => (r.starters_count : Int)).sum : Int) : ℚ)) := by
        apply List.map_congr_left
        intro r _
        rw [div_mul_eq_mul_div, mul_div_assoc]
      rw [h3, List.sum_map_mul_right]
      have h4 : ((groups.map fun r : SlotRow => (r.starters_count : ℚ))).sum
          = (((groups.map fun r => (r.starters_count : Int)).sum : Int) : ℚ) := by
        rw [Int.cast_list_sum, List.map_map]
        rfl
      rw [h4]
      rw [mul_comm, div_mul_cancel₀]
      exact Int.cast_ne_zero.mpr (ne_of_gt hT)
    · simpa using h1.2
  · rw [if_neg h1, if_neg h1]
    ring

theorem sumG_genderPhaseRun_other (groups : List SlotRow) (budget : Int)
    (alloc : Alloc) (g : String)
    (hg : ∀ r ∈ groups, genderOf r.age_group ≠ g) :
    sumG (genderPhaseRun groups budget alloc) g = sumG alloc g := by
  rw [genderPhaseRun]
  by_cases h1 : 0 < budget ∧ groups ≠ []
  · rw [if_pos h1]
    by_cases h2 : 0 < (groups.map fun r => (r.starters_count : Int)).sum
    · rw [if_pos h2]
      apply sumG_propAward_other
      intro p hp
      obtain ⟨r, hr, hrp⟩ := List.mem_map.mp hp
      rw [← hrp]
      exact hg r hr
    · rw [if_neg h2]
  · rw [if_neg h1]

theorem dget?_incrFold_notin (l : List (String × Int)) (a : Alloc) (k : String)
    (h : ∀ p ∈ l, p.1 ≠ k) :
    dget? (incrFold l a) k = dget? a k := by
  rw [dget?_incrFold]
  have hf : (l.filter fun p => decide (p.1 = k)) = [] := by
    rw [List.filter_eq_nil_iff]
    intro p hp
    simpa using h p hp
  rw [hf]
  cases dget? a k <;> simp

theorem dget?_propAward_notin (props : List (String × ℚ)) (alloc : Alloc)
    (budget : Int) (k : String)
    (h : ∀ p ∈ props, p.1 ≠ k) :
    dget? (if 0 < (floorLoop props alloc budget).2 then
        awardLoop (sortDescQ (props.map fun p => (p.1, p.2 - (truncQ p.2 : ℚ))))
          (floorLoop props alloc budget).2.toNat (floorLoop props alloc budget).1
      else (floorLoop props alloc budget).1) k = dget? alloc k := by
  have hfl : dget? (floorLoop props alloc budget).1 k = dget? alloc k := by
    rw [floorLoop_eq]
    apply dget?_incrFold_notin
    intro p hp
    obtain ⟨p', hp', hpp⟩ := List.mem_map.mp hp
    rw [← hpp]
    exact h p' hp'
  by_cases hrem : 0 < (floorLoop props alloc budget).2
  · rw [if_pos hrem, awardLoop_eq]
    rw [dget?_incrFold_notin _ _ _ ?_, hfl]
    intro p hp
    obtain ⟨p', hp', hpp⟩ := List.mem_map.mp hp
    have hmem : p' ∈ sortDescQ (props.map fun p => (p.1, p.2 - (truncQ p.2 : ℚ))) :=
      List.mem_of_mem_take hp'
    rw [sortDescQ, List.mem_insertionSort] at hmem
    obtain ⟨p'', hp'', hpp'⟩ := List.mem_map.mp hmem
    rw [← hpp, show p'.1 = p''.1 from by rw [← hpp']]
    exact h p'' hp''
  · rw [if_neg hrem]
    exact hfl

theorem dget?_genderPhaseRun_notin (groups : List SlotRow) (budget : Int)
    (alloc : Alloc) (k : String)
    (h : ∀ r ∈ groups, r.age_group ≠ k) :
    dget? (genderPhaseRun groups budget alloc) k = dget? alloc k := by
  rw [genderPhaseRun]
  by_cases h1 : 0 < budget ∧ groups ≠ []
  · rw [if_pos h1]
    by_cases h2 : 0 < (groups.map fun r => (r.starters_count : Int)).sum
    · rw [if_pos h2]
      apply dget?_propAward_notin
      intro p hp
      obtain ⟨r, hr, hrp⟩ := List.mem_map.mp hp
      rw [← hrp]
      exact h r hr
    · rw [if_neg h2]
  · rw [if_neg h1]

theorem dgetD_genderPhaseRun_le (groups : List SlotRow) (budget : Int)
    (alloc : Alloc) (k : String) :
    dgetD alloc k 0 ≤ dgetD (genderPhaseRun groups budget alloc) k 0 := by
  rw [genderPhaseRun]
  by_cases h1 : 0 < budget ∧ groups ≠ []
  · rw [if_pos h1]
    by_cases h2 : 0 < (groups.map fun r => (r.starters_count : Int)).sum
    · rw [if_pos h2]
      have hfl : dgetD alloc k 0 ≤ dgetD (floorLoop (groups.map fun r =>
          (r.age_group,
           (r.starters_count : ℚ) /
             (((groups.map fun r => (r.starters_count : Int)).sum : Int) : ℚ) *
             (budget : ℚ))) alloc budget).1 k 0 := by
        rw [floorLoop_eq]
        apply dgetD_incrFold_le
        intro p hp
        obtain ⟨p', hp', hpp⟩ := List.mem_map.mp hp
        obtain ⟨r, hr, hrp⟩ := List.mem_map.mp hp'
        rw [← hpp]
        apply truncQ_nonneg
        rw [← hrp]
        have hTq : (0 : ℚ) < (((groups.map fun r => (r.starters_count : Int)).sum : Int) : ℚ) := by
          exact_mod_cast h2
        have hbq : (0 : ℚ) ≤ (budget : ℚ) := by
          exact_mod_cast le_of_lt h1.1
        positivity
      by_cases hrem : 0 < (floorLoop (groups.map fun r =>
          (r.age_group,
           (r.starters_count : ℚ) /
             (((groups.map fun r => (r.starters_count : Int)).sum : Int) : ℚ) *
             (budget : ℚ))) alloc budget).2
      · rw [if_pos hrem, awardLoop_eq]
        refine le_trans hfl (dgetD_incrFold_le _ _ _ ?_)
        intro p hp
        obtain ⟨p', hp', hpp⟩ := List.mem_map.mp hp
        rw [← hpp]
        omega
      · rw [if_neg hrem]
        exact hfl
    · rw [if_neg h2]
  · rw [if_neg h1]

theorem nonneg_genderPhaseRun (groups : List SlotRow) (budget : Int)
    (alloc : Alloc) (h : ∀ p ∈ alloc, 0 ≤ p.2) :
    ∀ p ∈ genderPhaseRun groups budget alloc, 0 ≤ p.2 := by
  rw [genderPhaseRun]
  by_cases h1 : 0 < budget ∧ groups ≠ []
  · rw [if_pos h1]
    by_cases h2 : 0 < (groups.map fun r => (r.starters_count : Int)).sum
    · rw [if_pos h2]
      have hfl : ∀ p ∈ (floorLoop (groups.map fun r =>
          (r.age_group,
           (r.starters_count : ℚ) /
             (((groups.map fun r => (r.starters_count : Int)).sum : Int) : ℚ) *
             (budget : ℚ))) alloc budget).1, 0 ≤ p.2 := by
        rw [floorLoop_eq]
        apply nonneg_incrFold _ _ h
        intro p hp
        obtain ⟨p', hp', hpp⟩ := List.mem_map.mp hp
        obtain ⟨r, hr, hrp⟩ := List.mem_map.mp hp'
        rw [← hpp]
        apply truncQ_nonneg
        rw [← hrp]
        have hTq : (0 : ℚ) < (((groups.map fun r => (r.starters_count : Int)).sum : Int) : ℚ) := by
          exact_mod_cast h2
        have hbq : (0 : ℚ) ≤ (budget : ℚ) := by
          exact_mod_cast le_of_lt h1.1
        positivity
      by_cases hrem : 0 < (floorLoop (groups.map fun r =>
          (r.age_group,
           (r.starters_count : ℚ) /
             (((groups.map fun r => (r.starters_count : Int)).sum : Int) : ℚ) *
             (budget : ℚ))) alloc budget).2
      · rw [if_pos hrem, awardLoop_eq]
        apply nonneg_incrFold _ _ hfl
        intro p hp
        obtain ⟨p', hp', hpp⟩ := List.mem_map.mp hp
        rw [← hpp]
        omega
      · rw [if_neg hrem]
        exact hfl
    · rw [if_neg h2]
      exact h
  · rw [if_neg h1]
    exact h

/-! ### Reallocation step lemmas -/

theorem mem_keysOf_of_dget? {m : Alloc} {k : String} {v : Int}
    (h : dget? m k = some v) : k ∈ keysOf m := by
  have := dget?_mem h
  exact List.mem_map.mpr ⟨(k, v), this, rfl⟩

theorem award_targets_notin (targets : List SlotRow) (alloc1 : Alloc) (n : Nat)
    (k : String) (h : ∀ t ∈ targets, t.age_group ≠ k) :
    dget? (awardLoop (sortDescQ (targets.map fun t =>
        (t.age_group,
         (t.starters_count : ℚ) /
           ((max 1 (dgetD alloc1 t.age_group 1) : Int) : ℚ)))) n alloc1) k
      = dget? alloc1 k := by
  rw [awardLoop_eq]
  apply dget?_incrFold_notin
  intro p hp
  obtain ⟨p', hp', hpp⟩ := List.mem_map.mp hp
  have hmem : p' ∈ sortDescQ (targets.map fun t =>
      (t.age_group,
       (t.starters_count : ℚ) /
         ((max 1 (dgetD alloc1 t.age_group 1) : Int) : ℚ))) :=
    List.mem_of_mem_take hp'
  rw [sortDescQ, List.mem_insertionSort] at hmem
  obtain ⟨t, ht, htp⟩ := List.mem_map.mp hmem
  rw [← hpp, show p'.1 = t.age_group from by rw [← htp]]
  exact h t ht

theorem keysOf_reallocStepRun (mg fg : List SlotRow) (alloc : Alloc)
    (row : SlotRow) :
    keysOf (reallocStepRun mg fg alloc row) = keysOf alloc := by
  rw [reallocStepRun]
  by_cases h1 : 0 < row.starters_count ∧ row.finishers_count = 0 ∧
      dmem alloc row.age_group ∧ 0 < dgetD alloc row.age_group 0
  · rw [if_pos h1]
    have hmem : row.age_group ∈ keysOf alloc := dmem_iff.mp h1.2.2.1
    have hks : keysOf (dset alloc row.age_group 0) = keysOf alloc :=
      keysOf_dset_mem _ _ hmem
    by_cases h2 : ((if row.gender = "M" then mg else fg).filter
        fun t => decide (0 < t.finishers_count)) = []
    · rw [if_pos h2]
      exact hks
    · rw [if_neg h2, awardLoop_eq, keysOf_incrFold]
      exact hks
  · rw [if_neg h1]

theorem nonneg_reallocStepRun (mg fg : List SlotRow) (alloc : Alloc)
    (row : SlotRow) (h : ∀ p ∈ alloc, 0 ≤ p.2) :
    ∀ p ∈ reallocStepRun mg fg alloc row, 0 ≤ p.2 := by
  rw [reallocStepRun]
  by_cases h1 : 0 < row.starters_count ∧ row.finishers_count = 0 ∧
      dmem alloc row.age_group ∧ 0 < dgetD alloc row.age_group 0
  · rw [if_pos h1]
    have hset : ∀ p ∈ dset alloc row.age_group 0, 0 ≤ p.2 := by
      intro p hp
      rcases mem_of_dset hp with h' | h'
      · exact h p h'
      · rw [h']
    by_cases h2 : ((if row.gender = "M" then mg else fg).filter
        fun t => decide (0 < t.finishers_count)) = []
    · rw [if_pos h2]
      exact hset
    · rw [if_neg h2, awardLoop_eq]
      apply nonneg_incrFold _ _ hset
      intro p hp
      obtain ⟨p', hp', hpp⟩ := List.mem_map.mp hp
      rw [← hpp]
      omega
  · rw [if_neg h1]
    exact h

theorem dget?_reallocStepRun_notin (mg fg : List SlotRow) (alloc : Alloc)
    (row : SlotRow) (k : String) (hrow : row.age_group ≠ k)
    (hm : ∀ t ∈ mg, t.age_group ≠ k) (hf : ∀ t ∈ fg, t.age_group ≠ k) :
    dget? (reallocStepRun mg fg alloc row) k = dget? alloc k := by
  rw [reallocStepRun]
  by_cases h1 : 0 < row.starters_count ∧ row.finishers_count = 0 ∧
      dmem alloc row.age_group ∧ 0 < dgetD alloc row.age_group 0
  · rw [if_pos h1]
    have hset : dget? (dset alloc row.age_group 0) k = dget? alloc k :=
      dget?_dset_ne _ _ (Ne.symm hrow)
    by_cases h2 : ((if row.gender = "M" then mg else fg).filter
        fun t => decide (0 < t.finishers_count)) = []
    · rw [if_pos h2]
      exact hset
    · rw [if_neg h2, award_targets_notin]
      · exact hset
      · intro t ht
        have := List.mem_filter.mp ht
        by_cases hg : row.gender = "M"
        · rw [if_pos hg] at this
          exact hm t this.1
        · rw [if_neg hg] at this
          exact hf t this.1
  · rw [if_neg h1]

theorem reallocStepRun_get_or_zero (mg fg : List SlotRow) (alloc : Alloc)
    (row : SlotRow) (k : String)
    (hm : ∀ t ∈ mg, 0 < t.finishers_count → t.age_group ≠ k)
    (hf : ∀ t ∈ fg, 0 < t.finishers_count → t.age_group ≠ k) :
    dget? (reallocStepRun mg fg alloc row) k = dget? alloc k ∨
      dget? (reallocStepRun mg fg alloc row) k = some 0 := by
  rw [reallocStepRun]
  by_cases h1 : 0 < row.starters_count ∧ row.finishers_count = 0 ∧
      dmem alloc row.age_group ∧ 0 < dgetD alloc row.age_group 0
  · rw [if_pos h1]
    have htargets : ∀ t ∈ ((if row.gender = "M" then mg else fg).filter
        fun t => decide (0 < t.finishers_count)), t.age_group ≠ k := by
      intro t ht
      have h' := List.mem_filter.mp ht
      have hfin : 0 < t.finishers_count := by simpa using h'.2
      by_cases hg : row.gender = "M"
      · rw [if_pos hg] at h'
        exact hm t h'.1 hfin
      · rw [if_neg hg] at h'
        exact hf t h'.1 hfin
    have hset : dget? (dset alloc row.age_group 0) k
        = if row.age_group = k then some 0 else dget? alloc k := by
      by_cases hrk : row.age_group = k
      · rw [if_pos hrk, hrk, dget?_dset_self]
      · rw [if_neg hrk, dget?_dset_ne _ _ (Ne.symm hrk)]
    by_cases h2 : ((if row.gender = "M" then mg else fg).filter
        fun t => decide (0 < t.finishers_count)) = []
    · rw [if_pos h2, hset]
      by_cases hrk : row.age_group = k
      · right; rw [if_pos hrk]
      · left; rw [if_neg hrk]
    · rw [if_neg h2, award_targets_notin _ _ _ _ htargets, hset]
      by_cases hrk : row.age_group = k
      · right; rw [if_pos hrk]
      · left; rw [if_neg hrk]
  · rw [if_neg h1]
    left
    rfl

theorem foldl_stepRun_preserve_zero (mg fg : List SlotRow)
    (rows : List SlotRow) (alloc : Alloc) (k : String)
    (hz : dget? alloc k = some 0)
    (hm : ∀ t ∈ mg, 0 < t.finishers_count → t.age_group ≠ k)
    (hf : ∀ t ∈ fg, 0 < t.finishers_count → t.age_group ≠ k) :
    dget? (rows.foldl (reallocStepRun mg fg) alloc) k = some 0 := by
  induction rows generalizing alloc with
  | nil => simpa using hz
  | cons row rows ih =>
    rw [List.foldl_cons]
    apply ih
    rcases reallocStepRun_get_or_zero mg fg alloc row k hm hf with h' | h'
    · rw [h']; exact hz
    · exact h'

theorem foldl_stepRun_zeroes (mg fg : List SlotRow)
    (rows : List SlotRow) (alloc : Alloc) {r : SlotRow} {v : Int}
    (hr : r ∈ rows) (hst : 0 < r.starters_count)
    (hfin : r.finishers_count = 0)
    (hv : dget? alloc r.age_group = some v) (hvnn : 0 ≤ v)
    (hm : ∀ t ∈ mg, 0 < t.finishers_count → t.age_group ≠ r.age_group)
    (hf : ∀ t ∈ fg, 0 < t.finishers_count → t.age_group ≠ r.age_group) :
    dget? (rows.foldl (reallocStepRun mg fg) alloc) r.age_group = some 0 := by
  induction rows generalizing alloc v with
  | nil => simp at hr
  | cons row rows ih =>
    rw [List.foldl_cons]
    rcases List.mem_cons.mp hr with hr1 | hr1
    · subst hr1
      rcases eq_or_lt_of_le hvnn with hv0 | hvpos
      · apply foldl_stepRun_preserve_zero mg fg rows _ _ ?_ hm hf
        rcases reallocStepRun_get_or_zero mg fg alloc r r.age_group hm hf
          with h' | h'
        · rw [h', hv, ← hv0]
        · exact h'
      · have hcond : 0 < r.starters_count ∧ r.finishers_count = 0 ∧
            dmem alloc r.age_group ∧ 0 < dgetD alloc r.age_group 0 := by
          refine ⟨hst, hfin, dmem_iff.mpr (mem_keysOf_of_dget? hv), ?_⟩
          rw [dgetD, hv]
          simpa using hvpos
        apply foldl_stepRun_preserve_zero mg fg rows _ _ ?_ hm hf
        rw [reallocStepRun, if_pos hcond]
        have htargets : ∀ t ∈ ((if r.gender = "M" then mg else fg).filter
            fun t => decide (0 < t.finishers_count)), t.age_group ≠ r.age_group := by
          intro t ht
          have h' := List.mem_filter.mp ht
          have hfint : 0 < t.finishers_count := by simpa using h'.2
          by_cases hg : r.gender = "M"
          · rw [if_pos hg] at h'
            exact hm t h'.1 hfint
          · rw [if_neg hg] at h'
            exact hf t h'.1 hfint
        by_cases h2 : ((if r.gender = "M" then mg else fg).filter
            fun t => decide (0 < t.finishers_count)) = []
        · rw [if_pos h2, dget?_dset_self]
        · rw [if_neg h2, award_targets_notin _ _ _ _ htargets, dget?_dset_self]
    · rcases reallocStepRun_get_or_zero mg fg alloc row r.age_group hm hf
        with h' | h'
      · exact ih _ hr1 (h'.trans hv) hvnn
      · exact ih _ hr1 h' (le_refl 0)

theorem keysOf_foldl_stepRun (mg fg : List SlotRow) (rows : List SlotRow)
    (alloc : Alloc) :
    keysOf (rows.foldl (reallocStepRun mg fg) alloc) = keysOf alloc := by
  induction rows generalizing alloc with
  | nil => rfl
  | cons row rows ih =>
    rw [List.foldl_cons, ih, keysOf_reallocStepRun]

theorem nonneg_foldl_stepRun (mg fg : List SlotRow) (rows : List SlotRow)
    (alloc : Alloc) (h : ∀ p ∈ alloc, 0 ≤ p.2) :
    ∀ p ∈ rows.foldl (reallocStepRun mg fg) alloc, 0 ≤ p.2 := by
  induction rows generalizing alloc with
  | nil => simpa using h
  | cons row rows ih =>
    rw [List.foldl_cons]
    exact ih _ (nonneg_reallocStepRun mg fg alloc row h)

theorem dget?_foldl_stepRun_notin (mg fg : List SlotRow) (rows : List SlotRow)
    (alloc : Alloc) (k : String)
    (hrows : ∀ r ∈ rows, r.age_group ≠ k)
    (hm : ∀ t ∈ mg, t.age_group ≠ k) (hf : ∀ t ∈ fg, t.age_group ≠ k) :
    dget? (rows.foldl (reallocStepRun mg fg) alloc) k = dget? alloc k := by
  induction rows generalizing alloc with
  | nil => rfl
  | cons row rows ih =>
    rw [List.foldl_cons,
      ih _ fun r hr => hrows r (List.mem_cons_of_mem _ hr),
      dget?_reallocStepRun_notin mg fg alloc row k
        (hrows row (List.mem_cons_self _ _)) hm hf]

/-! ### fillMissing -/

theorem fillMissing_cons (ag : String) (valid : List String) (a : Alloc) :
    fillMissing (ag :: valid) a =
      fillMissing valid (if dmem a ag then a else dset a ag 0) := by
  rw [fillMissing, List.foldl_cons]
  rfl

theorem dget?_fillMissing_mem (valid : List String) (a : Alloc) (k : String)
    (h : k ∈ keysOf a) :
    dget? (fillMissing valid a) k = dget? a k := by
  induction valid generalizing a with
  | nil => rfl
  | cons ag valid ih =>
    rw [fillMissing_cons]
    by_cases hmem : dmem a ag
    · rw [if_pos hmem]
      exact ih a h
    · rw [if_neg hmem]
      have hne : ag ≠ k := fun hc => hmem (dmem_iff.mpr (hc ▸ h))
      rw [ih _ ((mem_keysOf_dset a k ag 0).mpr (Or.inl h)),
        dget?_dset_ne _ _ (Ne.symm hne)]

theorem mem_keysOf_fillMissing (valid : List String) (a : Alloc) (k : String) :
    k ∈ keysOf (fillMissing valid a) ↔ k ∈ keysOf a ∨ k ∈ valid := by
  induction valid generalizing a with
  | nil => simp [fillMissing]
  | cons ag valid ih =>
    rw [fillMissing_cons]
    by_cases hmem : dmem a ag
    · rw [if_pos hmem, ih]
      constructor
      · rintro (h | h)
        · exact Or.inl h
        · exact Or.inr (List.mem_cons_of_mem _ h)
      · rintro (h | h)
        · exact Or.inl h
        · rcases List.mem_cons.mp h with h1 | h1
          · exact Or.inl (h1 ▸ dmem_iff.mp hmem)
          · exact Or.inr h1
    · rw [if_neg hmem, ih, mem_keysOf_dset]
      constructor
      · rintro ((h | h) | h)
        · exact Or.inl h
        · exact Or.inr (h ▸ List.mem_cons_self _ _)
        · exact Or.inr (List.mem_cons_of_mem _ h)
      · rintro (h | h)
        · exact Or.inl (Or.inl h)
        · rcases List.mem_cons.mp h with h1 | h1
          · exact Or.inl (Or.inr h1)
          · exact Or.inr h1

theorem nonneg_fillMissing (valid : List String) (a : Alloc)
    (h : ∀ p ∈ a, 0 ≤ p.2) :
    ∀ p ∈ fillMissing valid a, 0 ≤ p.2 := by
  induction valid generalizing a with
  | nil => simpa [fillMissing] using h
  | cons ag valid ih =>
    rw [fillMissing_cons]
    by_cases hmem : dmem a ag
    · rw [if_pos hmem]
      exact ih a h
    · rw [if_neg hmem]
      refine ih _ fun p hp => ?_
      rcases mem_of_dset hp with h1 | h1
      · exact h p h1
      · rw [h1]

/-! ### Pipeline facts under well-formedness -/

theorem keysOf_allocBeforeReallocRun (slotDf : List SlotRow)
    (valid : List String) (mens womens : Int) (wf : WfSlotDf slotDf valid) :
    keysOf (allocBeforeReallocRun slotDf valid mens womens)
      = keysOf (initAlloc valid) := by
  simp only [allocBeforeReallocRun]
  rw [keysOf_genderPhaseRun, keysOf_genderPhaseRun, keysOf_minGuarantee]
  intro r hr
  exact (mem_keysOf_initAlloc _ _).mpr (wf.sub r hr)

theorem nonneg_allocBeforeReallocRun (slotDf : List SlotRow)
    (valid : List String) (mens womens : Int) :
    ∀ p ∈ allocBeforeReallocRun slotDf valid mens womens, 0 ≤ p.2 := by
  simp only [allocBeforeReallocRun]
  apply nonneg_genderPhaseRun
  apply nonneg_genderPhaseRun
  apply nonneg_minGuarantee
  intro p hp
  rw [initAlloc_val_aux valid [] (by simp) p hp]

theorem keysOf_calculateRun (slotDf : List SlotRow) (valid : List String)
    (mens womens : Int) (wf : WfSlotDf slotDf valid) (k : String) :
    k ∈ keysOf (calculateRun slotDf valid mens womens) ↔ k ∈ valid := by
  rw [calculateRun, mem_keysOf_fillMissing, reallocRun, keysOf_foldl_stepRun,
    keysOf_allocBeforeReallocRun slotDf valid mens womens wf,
    mem_keysOf_initAlloc]
  simp

theorem nonneg_calculateRun (slotDf : List SlotRow) (valid : List String)
    (mens womens : Int) :
    ∀ p ∈ calculateRun slotDf valid mens womens, 0 ≤ p.2 := by
  rw [calculateRun]
  apply nonneg_fillMissing
  rw [reallocRun]
  apply nonneg_foldl_stepRun
  exact nonneg_allocBeforeReallocRun slotDf valid mens womens

/-! ### Helper: permutations of a two-element list -/

theorem perm_pair {α : Type} {a b : α} {l : List α} (h : l.Perm [a, b]) :
    l = [a, b] ∨ l = [b, a] := by
  rcases l with _ | ⟨x, _ | ⟨y, _ | ⟨z, t⟩⟩⟩
  · simpa using h.length_eq
  · simpa using h.length_eq
  · have hx : x ∈ [a, b] := h.mem_iff.mp (List.mem_cons_self _ _)
    rcases List.mem_cons.mp hx with rfl | hx1
    · left
      have h2 : [y].Perm [b] := h.cons_inv
      have h3 : y = b := by
        have := List.perm_singleton.mp h2
        injection this
      rw [h3]
    · have hxb : x = b := by simpa using hx1
      subst hxb
      right
      have h2 : [y].Perm [a] := (h.trans (List.Perm.swap a x []).symm).cons_inv
      have h3 : y = a := by
        have := List.perm_singleton.mp h2
        injection this
      rw [h3]
  · simpa using h.length_eq

/-! ### The claims -/

/-- Claim C10: `calculate_slot_allocation` is total, with no division by zero:
the proportional-share division only runs under the `total_starters > 0`
guard, and the reallocation ranking divisor is `max(1, allocation)`, so for
every aggregated roster and any slot quotas every `checkedDiv` succeeds and
the allocator returns a map. -/
theorem C10_allocate_total_no_div_by_zero (slotDf : List SlotRow)
    (valid : List String) (mens womens : Int) :
    ∃ a, calculate_slot_allocation slotDf valid mens womens = some a :=
  ⟨calculateRun slotDf valid mens womens, calculate_eq slotDf valid mens womens⟩

/-- Claim C9 (code bug): the allocator is not a function of the roster
alone — it also depends on the order in which the aggregation emits its
rows, which polars `group_by` leaves unspecified. With two tied categories
(equal starter shares, so tied fractional remainders) the largest-remainder
slot goes to whichever row the aggregation happens to list first: here the
two legal aggregation orders of the same roster produce different maps, so
two runs on equal inputs need not be equal. -/
theorem C9_allocation_depends_on_aggregation_order :
    calculate_slot_allocation
        [⟨"M18-24", "M", 1, 1⟩, ⟨"M25-29", "M", 1, 1⟩]
        ["M18-24", "M25-29"] 3 0
      = some [("M18-24", 2), ("M25-29", 1)] ∧
    calculate_slot_allocation
        [⟨"M25-29", "M", 1, 1⟩, ⟨"M18-24", "M", 1, 1⟩]
        ["M18-24", "M25-29"] 3 0
      = some [("M18-24", 1), ("M25-29", 2)] ∧
    calculate_slot_allocation
        [⟨"M18-24", "M", 1, 1⟩, ⟨"M25-29", "M", 1, 1⟩]
        ["M18-24", "M25-29"] 3 0
      ≠ calculate_slot_allocation
        [⟨"M25-29", "M", 1, 1⟩, ⟨"M18-24", "M", 1, 1⟩]
        ["M18-24", "M25-29"] 3 0 := by
  refine ⟨?_, ?_, ?_⟩
  · with_unfolding_all rfl
  · with_unfolding_all rfl
  · intro hc
    have h1 : calculate_slot_allocation
        [⟨"M18-24", "M", 1, 1⟩, ⟨"M25-29", "M", 1, 1⟩]
        ["M18-24", "M25-29"] 3 0
      = some [("M18-24", 2), ("M25-29", 1)] := by with_unfolding_all rfl
    have h2 : calculate_slot_allocation
        [⟨"M25-29", "M", 1, 1⟩, ⟨"M18-24", "M", 1, 1⟩]
        ["M18-24", "M25-29"] 3 0
      = some [("M18-24", 1), ("M25-29", 2)] := by with_unfolding_all rfl
    rw [h1, h2] at hc
    simp at hc

/-- Claim C8 counterexample: the allocator performs no input-shape
validation. On an empty ground-truth set it returns the empty map, and on
negative quotas it returns an ordinary map (the category keeps its
minimum-guarantee slot), instead of failing fast. -/
theorem C8_returns_map_on_invalid_shape :
    calculate_slot_allocation [] [] 5 5 = some [] ∧
    calculate_slot_allocation [⟨"M35-39", "M", 3, 2⟩] ["M35-39"] (-5) (-5)
      = some [("M35-39", 1)] := by
  constructor
  · with_unfolding_all rfl
  · with_unfolding_all rfl

/-- Claim C8 as amended: `calculate_slot_allocation` never signals an error
for an empty ground-truth set or negative quotas. With an empty ground-truth
set it returns the empty allocation map for every quota pair, and with
negative quotas it returns a normal map in which a started category keeps
exactly its minimum-guarantee slot (the negative budgets only disable the
proportional phases). -/
theorem C8_no_input_validation (mens womens : Int) (hm : mens < 0)
    (hw : womens < 0) :
    calculate_slot_allocation [] [] mens womens = some [] ∧
    calculate_slot_allocation [⟨"M35-39", "M", 3, 2⟩] ["M35-39"] mens womens
      = some [("M35-39", 1)] := by
  constructor
  · rw [calculate_eq]
    have h1 : calculateRun [] [] mens womens = [] := by
      simp [calculateRun, allocBeforeReallocRun, reallocRun, fillMissing,
        minGuarantee, genderPhaseRun, maleGroups, femaleGroups, initAlloc]
    rw [h1]
  · rw [calculate_eq]
    have hm1 : ¬(0 < mens - 1) := by omega
    have hw1 : ¬(0 < womens) := by omega
    have h1 : calculateRun [⟨"M35-39", "M", 3, 2⟩] ["M35-39"] mens womens
        = [("M35-39", 1)] := by
      have hmin : minGuarantee [⟨"M35-39", "M", 3, 2⟩]
          (initAlloc ["M35-39"]) mens womens
          = ([("M35-39", 1)], mens - 1, womens) := by
        with_unfolding_all rfl
      simp only [calculateRun, allocBeforeReallocRun, hmin]
      rw [genderPhaseRun, if_neg (fun hc => hw1 hc.1)]
      rw [genderPhaseRun, if_neg (fun hc => hm1 hc.1)]
      have hreal : reallocRun [⟨"M35-39", "M", 3, 2⟩] [("M35-39", 1)]
          = [("M35-39", 1)] := by
        with_unfolding_all rfl
      rw [hreal]
      with_unfolding_all rfl
    rw [h1]

/-- Claim C8 amended, witness at quotas `-5`/`-5`. -/
theorem C8_no_input_validation_witness :
    (-5 : Int) < 0 ∧
    (calculate_slot_allocation [] [] (-5) (-5) = some [] ∧
     calculate_slot_allocation [⟨"M35-39", "M", 3, 2⟩] ["M35-39"] (-5) (-5)
       = some [("M35-39", 1)]) :=
  ⟨by decide, C8_no_input_validation (-5) (-5) (by decide) (by decide)⟩

/-- Claim C2: the §8 example scenario. For any order in which the
aggregation may emit the two category rows of the example roster, the
allocator returns `{M35-39: 3, M40-44: 0}`; the selector applied to that map
returns rows 0, 1, 2, which are exactly the three `M35-39` finishers whose
rank is at most 3, i.e. the three lowest-ranked finishers. -/
theorem C2_example_scenario (sdf : List SlotRow)
    (hperm : sdf.Perm (buildSlotDf exC2Roster exC2Valid)) :
    calculate_slot_allocation sdf exC2Valid 3 0
      = some [("M35-39", 3), ("M40-44", 0)] ∧
    determine_qualifiers exC2Roster [("M35-39", 3), ("M40-44", 0)] = [0, 1, 2] ∧
    ((finDf exC2Roster "M35-39").filter fun p =>
        decide (p.2.age_group_rank ≤ 3)).map Prod.fst = [0, 1, 2] := by
  have hbuild : buildSlotDf exC2Roster exC2Valid
      = [⟨"M35-39", "M", 10, 8⟩, ⟨"M40-44", "M", 5, 0⟩] := by
    with_unfolding_all rfl
  rw [hbuild] at hperm
  refine ⟨?_, ?_, ?_⟩
  · rcases perm_pair hperm with h | h
    · rw [h]
      with_unfolding_all rfl
    · rw [h]
      with_unfolding_all rfl
  · with_unfolding_all rfl
  · with_unfolding_all rfl

/-- Claim C2, witness at the first-appearance aggregation order. -/
theorem C2_example_scenario_witness :
    calculate_slot_allocation (buildSlotDf exC2Roster exC2Valid) exC2Valid 3 0
      = some [("M35-39", 3), ("M40-44", 0)] ∧
    determine_qualifiers exC2Roster [("M35-39", 3), ("M40-44", 0)] = [0, 1, 2] ∧
    ((finDf exC2Roster "M35-39").filter fun p =>
        decide (p.2.age_group_rank ≤ 3)).map Prod.fst = [0, 1, 2] :=
  C2_example_scenario (buildSlotDf exC2Roster exC2Valid) (List.Perm.refl _)

/-- Claim C6: after the minimum-guarantee phase every ground-truth category
with a starter holds exactly one slot, and each such category decrements its
gender's budget by exactly 1 even if that drives the budget negative
(budgets equal quota minus the count of that gender's started categories,
with no lower bound); the ≥ 1 bound survives the proportional and
largest-remainder phases, i.e. it still holds in the state just before the
zero-finisher withdrawal. -/
theorem C6_minimum_guarantee (slotDf : List SlotRow) (valid : List String)
    (mens womens : Int) (wf : WfSlotDf slotDf valid)
    (hmf : ∀ r ∈ slotDf, r.gender = "M" ∨ r.gender = "F") :
    ((minGuarantee slotDf (initAlloc valid) mens womens).2.1
        = mens - ((maleGroups slotDf).length : Int) ∧
     (minGuarantee slotDf (initAlloc valid) mens womens).2.2
        = womens - ((femaleGroups slotDf).length : Int)) ∧
    ∀ r ∈ slotDf, 0 < r.starters_count →
      dget? (minGuarantee slotDf (initAlloc valid) mens womens).1 r.age_group
          = some 1 ∧
      ∀ a, allocBeforeRealloc slotDf valid mens womens = some a →
        1 ≤ dgetD a r.age_group 0 := by
  constructor
  · constructor
    · exact (minGuarantee_budget slotDf _ mens womens).1
    · rw [(minGuarantee_budget slotDf _ mens womens).2]
      have hfeq : (slotDf.filter fun r =>
          decide (¬r.gender = "M" ∧ 0 < r.starters_count)) = femaleGroups slotDf := by
        rw [femaleGroups]
        apply List.filter_congr
        intro r hr
        rcases hmf r hr with h | h <;> simp [h]
      rw [hfeq]
  · intro r hr hst
    have hsome := minGuarantee_get_of_started slotDf (initAlloc valid)
      mens womens hr hst
    refine ⟨hsome, ?_⟩
    intro a ha
    have haeq : allocBeforeReallocRun slotDf valid mens womens = a :=
      Option.some.inj
        ((allocBeforeRealloc_eq slotDf valid mens womens).symm.trans ha)
    subst haeq
    simp only [allocBeforeReallocRun]
    have h1 : dgetD (minGuarantee slotDf (initAlloc valid) mens womens).1
        r.age_group 0 = 1 := by
      rw [dgetD, hsome]
      rfl
    have le1 := dgetD_genderPhaseRun_le (maleGroups slotDf)
      (minGuarantee slotDf (initAlloc valid) mens womens).2.1
      (minGuarantee slotDf (initAlloc valid) mens womens).1 r.age_group
    have le2 := dgetD_genderPhaseRun_le (femaleGroups slotDf)
      (minGuarantee slotDf (initAlloc valid) mens womens).2.2
      (genderPhaseRun (maleGroups slotDf)
        (minGuarantee slotDf (initAlloc valid) mens womens).2.1
        (minGuarantee slotDf (initAlloc valid) mens womens).1) r.age_group
    omega

/-- Claim C6, witness: the §8 example roster, quotas 3/0. Both categories
started, so both hold one slot after the minimum guarantee and at least one
slot before the withdrawal phase. -/
theorem C6_minimum_guarantee_witness :
    ((minGuarantee (buildSlotDf exC2Roster exC2Valid) (initAlloc exC2Valid)
        3 0).2.1
      = 3 - ((maleGroups (buildSlotDf exC2Roster exC2Valid)).length : Int) ∧
     (minGuarantee (buildSlotDf exC2Roster exC2Valid) (initAlloc exC2Valid)
        3 0).2.2
      = 0 - ((femaleGroups (buildSlotDf exC2Roster exC2Valid)).length : Int)) ∧
    ∀ r ∈ buildSlotDf exC2Roster exC2Valid, 0 < r.starters_count →
      dget? (minGuarantee (buildSlotDf exC2Roster exC2Valid)
          (initAlloc exC2Valid) 3 0).1 r.age_group = some 1 ∧
      ∀ a, allocBeforeRealloc (buildSlotDf exC2Roster exC2Valid) exC2Valid 3 0
          = some a → 1 ≤ dgetD a r.age_group 0 :=
  C6_minimum_guarantee (buildSlotDf exC2Roster exC2Valid) exC2Valid 3 0
    ⟨by with_unfolding_all decide, by with_unfolding_all decide,
     by with_unfolding_all decide⟩
    (by with_unfolding_all decide)

/-- Claim C4: in the final allocation map, every aggregated category with
starters but no finishers ends at 0: the withdrawal loop zeroes it (or it
was already 0), and no later reallocation can re-award it because
reallocation targets must have finishers. -/
theorem C4_zero_finisher_withdrawal (slotDf : List SlotRow)
    (valid : List String) (mens womens : Int) (wf : WfSlotDf slotDf valid) :
    ∀ a, calculate_slot_allocation slotDf valid mens womens = some a →
      ∀ r ∈ slotDf, 0 < r.starters_count → r.finishers_count = 0 →
        dgetD a r.age_group 0 = 0 := by
  intro a ha r hr hst hfin
  have haeq : calculateRun slotDf valid mens womens = a :=
    Option.some.inj ((calculate_eq slotDf valid mens womens).symm.trans ha)
  subst haeq
  rw [calculateRun]
  have hkey : r.age_group ∈ keysOf (allocBeforeReallocRun slotDf valid mens womens) := by
    rw [keysOf_allocBeforeReallocRun slotDf valid mens womens wf,
      mem_keysOf_initAlloc]
    exact wf.sub r hr
  obtain ⟨v, hv⟩ := dget?_isSome_of_mem hkey
  have hvnn : 0 ≤ v :=
    nonneg_allocBeforeReallocRun slotDf valid mens womens (r.age_group, v)
      (dget?_mem hv)
  have hm : ∀ t ∈ maleGroups slotDf, 0 < t.finishers_count →
      t.age_group ≠ r.age_group := by
    intro t ht hfint hc
    have ht' : t ∈ slotDf := List.mem_of_mem_filter ht
    have heq : t = r := List.inj_on_of_nodup_map wf.nodup ht' hr hc
    rw [heq, hfin] at hfint
    omega
  have hf : ∀ t ∈ femaleGroups slotDf, 0 < t.finishers_count →
      t.age_group ≠ r.age_group := by
    intro t ht hfint hc
    have ht' : t ∈ slotDf := List.mem_of_mem_filter ht
    have heq : t = r := List.inj_on_of_nodup_map wf.nodup ht' hr hc
    rw [heq, hfin] at hfint
    omega
  have hzero : dget? (reallocRun slotDf
      (allocBeforeReallocRun slotDf valid mens womens)) r.age_group = some 0 := by
    rw [reallocRun]
    exact foldl_stepRun_zeroes _ _ slotDf _ hr hst hfin hv hvnn hm hf
  have hmem2 : r.age_group ∈ keysOf (reallocRun slotDf
      (allocBeforeReallocRun slotDf valid mens womens)) := by
    rw [reallocRun, keysOf_foldl_stepRun]
    exact hkey
  rw [dgetD, dget?_fillMissing_mem _ _ _ hmem2, hzero]
  rfl

/-- Claim C4, witness: in the §8 example, `M40-44` (5 starters, 0
finishers) ends at 0 slots. -/
theorem C4_zero_finisher_withdrawal_witness :
    dgetD ((calculate_slot_allocation (buildSlotDf exC2Roster exC2Valid)
        exC2Valid 3 0).getD []) "M40-44" 0 = 0 := by
  have h := C4_zero_finisher_withdrawal (buildSlotDf exC2Roster exC2Valid)
    exC2Valid 3 0
    ⟨by with_unfolding_all decide, by with_unfolding_all decide,
     by with_unfolding_all decide⟩
    ((calculate_slot_allocation (buildSlotDf exC2Roster exC2Valid)
        exC2Valid 3 0).getD [])
    (by rw [calculate_eq]; rfl)
    ⟨"M40-44", "M", 5, 0⟩
    (by with_unfolding_all decide)
    (by decide) (by decide)
  exact h

theorem sumG_eq_zero {m : Alloc} (g : String) (h : ∀ p ∈ m, p.2 = 0) :
    sumG m g = 0 := by
  rw [sumG]
  apply List.sum_eq_zero
  intro x hx
  obtain ⟨p, hp, hpx⟩ := List.mem_map.mp hx
  rw [← hpx]
  exact h p (List.mem_filter.mp hp).1

/-- Claim C1: total conservation before reallocation. For a gender with at
least one started category and a quota at least the number of its started
categories (so the minimum guarantee leaves the budget non-negative), the
gender's slot total in the state just after the largest-remainder
correction — i.e. before the zero-finisher reallocation — equals the
gender's input quota. -/
theorem C1_total_conservation_before_realloc (slotDf : List SlotRow)
    (valid : List String) (mens womens : Int) (g : String)
    (wf : WfSlotDf slotDf valid)
    (hmf : ∀ r ∈ slotDf, r.gender = "M" ∨ r.gender = "F")
    (hg : g = "M" ∨ g = "F")
    (hne : ∃ r ∈ slotDf, r.gender = g ∧ 0 < r.starters_count)
    (hbud : ((slotDf.filter fun r =>
        decide (r.gender = g ∧ 0 < r.starters_count)).length : Int)
      ≤ (if g = "M" then mens else womens)) :
    ∀ a, allocBeforeRealloc slotDf valid mens womens = some a →
      sumG a g = (if g = "M" then mens else womens) := by
  intro a ha
  have haeq : allocBeforeReallocRun slotDf valid mens womens = a :=
    Option.some.inj
      ((allocBeforeRealloc_eq slotDf valid mens womens).symm.trans ha)
  subst haeq
  simp only [allocBeforeReallocRun]
  have hz : ∀ r ∈ slotDf, 0 < r.starters_count →
      dget? (initAlloc valid) r.age_group = some 0 := fun r hr _ =>
    dget?_initAlloc (wf.sub r hr)
  have hsum0 : sumG (initAlloc valid) g = 0 :=
    sumG_eq_zero g (initAlloc_val_aux valid [] (by simp))
  have hkeys1 : keysOf (minGuarantee slotDf (initAlloc valid) mens womens).1
      = keysOf (initAlloc valid) :=
    keysOf_minGuarantee slotDf _ mens womens fun r hr =>
      (mem_keysOf_initAlloc valid _).mpr (wf.sub r hr)
  have hcnt : (slotDf.filter fun r =>
        decide (genderOf r.age_group = g ∧ 0 < r.starters_count))
      = slotDf.filter fun r => decide (r.gender = g ∧ 0 < r.starters_count) := by
    apply List.filter_congr
    intro r hr
    rw [wf.gen r hr]
  have hsum1 : sumG (minGuarantee slotDf (initAlloc valid) mens womens).1 g
      = ((slotDf.filter fun r =>
          decide (r.gender = g ∧ 0 < r.starters_count)).length : Int) := by
    rw [sumG_minGuarantee slotDf _ mens womens g hz wf.nodup, hsum0, hcnt]
    ring
  rcases hg with hg | hg
  · subst hg
    rw [if_pos rfl] at hbud ⊢
    have hmgne : maleGroups slotDf ≠ [] := by
      obtain ⟨r, hr, hrg, hrs⟩ := hne
      exact List.ne_nil_of_mem
        (List.mem_filter.mpr ⟨hr, by simp [hrg, hrs]⟩)
    have hmsum : sumG (genderPhaseRun (maleGroups slotDf)
        (minGuarantee slotDf (initAlloc valid) mens womens).2.1
        (minGuarantee slotDf (initAlloc valid) mens womens).1) "M"
        = sumG (minGuarantee slotDf (initAlloc valid) mens womens).1 "M" +
          (if 0 < (minGuarantee slotDf (initAlloc valid) mens womens).2.1 ∧
              maleGroups slotDf ≠ [] then
            (minGuarantee slotDf (initAlloc valid) mens womens).2.1 else 0) := by
      apply sumG_genderPhaseRun
      · intro r hr
        have h' := List.mem_filter.mp hr
        have : r.gender = "M" := by
          have := h'.2
          simp at this
          exact this.1
        rw [← wf.gen r h'.1, this]
      · intro r hr
        rw [hkeys1, mem_keysOf_initAlloc]
        exact wf.sub r (List.mem_of_mem_filter hr)
      · intro r hr
        have h' := (List.mem_filter.mp hr).2
        simp at h'
        exact h'.2
    have hfsum : sumG (genderPhaseRun (femaleGroups slotDf)
        (minGuarantee slotDf (initAlloc valid) mens womens).2.2
        (genderPhaseRun (maleGroups slotDf)
          (minGuarantee slotDf (initAlloc valid) mens womens).2.1
          (minGuarantee slotDf (initAlloc valid) mens womens).1)) "M"
        = sumG (genderPhaseRun (maleGroups slotDf)
            (minGuarantee slotDf (initAlloc valid) mens womens).2.1
            (minGuarantee slotDf (initAlloc valid) mens womens).1) "M" := by
      apply sumG_genderPhaseRun_other
      intro r hr
      have h' := List.mem_filter.mp hr
      have hrf : r.gender = "F" := by
        have := h'.2
        simp at this
        exact this.1
      rw [← wf.gen r h'.1, hrf]
      decide
    have hb1 := (minGuarantee_budget slotDf (initAlloc valid) mens womens).1
    rw [hfsum, hmsum, hsum1]
    have hlen : (slotDf.filter fun r =>
        decide (r.gender = "M" ∧ 0 < r.starters_count)) = maleGroups slotDf := rfl
    rw [hlen] at hbud ⊢
    by_cases hpos : 0 < (minGuarantee slotDf (initAlloc valid) mens womens).2.1
    · rw [if_pos ⟨hpos, hmgne⟩, hb1]
      ring
    · rw [if_neg fun hc => hpos hc.1, hb1] at *
      rw [hb1] at hpos
      omega
  · subst hg
    rw [if_neg (by decide)] at hbud ⊢
    have hfgne : femaleGroups slotDf ≠ [] := by
      obtain ⟨r, hr, hrg, hrs⟩ := hne
      exact List.ne_nil_of_mem
        (List.mem_filter.mpr ⟨hr, by simp [hrg, hrs]⟩)
    have hmsum : sumG (genderPhaseRun (maleGroups slotDf)
        (minGuarantee slotDf (initAlloc valid) mens womens).2.1
        (minGuarantee slotDf (initAlloc valid) mens womens).1) "F"
        = sumG (minGuarantee slotDf (initAlloc valid) mens womens).1 "F" := by
      apply sumG_genderPhaseRun_other
      intro r hr
      have h' := List.mem_filter.mp hr
      have hrm : r.gender = "M" := by
        have := h'.2
        simp at this
        exact this.1
      rw [← wf.gen r h'.1, hrm]
      decide
    have hkeys2 : keysOf (genderPhaseRun (maleGroups slotDf)
        (minGuarantee slotDf (initAlloc valid) mens womens).2.1
        (minGuarantee slotDf (initAlloc valid) mens womens).1)
        = keysOf (minGuarantee slotDf (initAlloc valid) mens womens).1 :=
      keysOf_genderPhaseRun _ _ _
    have hfsum : sumG (genderPhaseRun (femaleGroups slotDf)
        (minGuarantee slotDf (initAlloc valid) mens womens).2.2
        (genderPhaseRun (maleGroups slotDf)
          (minGuarantee slotDf (initAlloc valid) mens womens).2.1
          (minGuarantee slotDf (initAlloc valid) mens womens).1)) "F"
        = sumG (genderPhaseRun (maleGroups slotDf)
            (minGuarantee slotDf (initAlloc valid) mens womens).2.1
            (minGuarantee slotDf (initAlloc valid) mens womens).1) "F" +
          (if 0 < (minGuarantee slotDf (initAlloc valid) mens womens).2.2 ∧
              femaleGroups slotDf ≠ [] then
            (minGuarantee slotDf (initAlloc valid) mens womens).2.2 else 0) := by
      apply sumG_genderPhaseRun
      · intro r hr
        have h' := List.mem_filter.mp hr
        have hrf : r.gender = "F" := by
          have := h'.2
          simp at this
          exact this.1
        rw [← wf.gen r h'.1, hrf]
      · intro r hr
        rw [hkeys2, hkeys1, mem_keysOf_initAlloc]
        exact wf.sub r (List.mem_of_mem_filter hr)
      · intro r hr
        have h' := (List.mem_filter.mp hr).2
        simp at h'
        exact h'.2
    have hb2 := (minGuarantee_budget slotDf (initAlloc valid) mens womens).2
    have hfeq : (slotDf.filter fun r =>
        decide (¬r.gender = "M" ∧ 0 < r.starters_count)) = femaleGroups slotDf := by
      rw [femaleGroups]
      apply List.filter_congr
      intro r hr
      rcases hmf r hr with h | h <;> simp [h]
    rw [hfeq] at hb2
    have hlen : (slotDf.filter fun r =>
        decide (r.gender = "F" ∧ 0 < r.starters_count)) = femaleGroups slotDf := rfl
    rw [hlen] at hbud
    rw [hfsum, hmsum, hsum1, hlen]
    by_cases hpos : 0 < (minGuarantee slotDf (initAlloc valid) mens womens).2.2
    · rw [if_pos ⟨hpos, hfgne⟩, hb2]
      ring
    · rw [if_neg fun hc => hpos hc.1]
      rw [hb2] at hpos
      omega

/-- Claim C1, witness: the §8 example roster, male quota 3 ≥ 2 started
male categories; the male total just before reallocation is 3. -/
theorem C1_total_conservation_witness :
    sumG [("M35-39", 2), ("M40-44", 1)] "M" = (if ("M" : String) = "M" then 3 else 0) :=
  C1_total_conservation_before_realloc (buildSlotDf exC2Roster exC2Valid)
    exC2Valid 3 0 "M"
    ⟨by with_unfolding_all decide, by with_unfolding_all decide,
     by with_unfolding_all decide⟩
    (by with_unfolding_all decide)
    (Or.inl rfl)
    (by with_unfolding_all decide)
    (by with_unfolding_all decide)
    [("M35-39", 2), ("M40-44", 1)]
    (by with_unfolding_all rfl)

theorem determine_qualifiers_eq (df : List Competitor) (m : Alloc) :
    determine_qualifiers df m = (m.map fun p => selectCat df p.1 p.2).flatten := by
  rw [determine_qualifiers]
  suffices h : ∀ acc : List Nat,
      m.foldl (fun acc p => acc ++ selectCat df p.1 p.2) acc
        = acc ++ (m.map fun p => selectCat df p.1 p.2).flatten by
    simpa using h []
  induction m with
  | nil => simp
  | cons p m ih =>
    intro acc
    rw [List.foldl_cons, ih, List.map_cons, List.flatten_cons, List.append_assoc]

theorem mem_selectCat {df : List Competitor} {ag : String} {n : Int}
    {i : Nat} (h : i ∈ selectCat df ag n) :
    ∃ c, (i, c) ∈ df.enum ∧ c.age_group = ag ∧ c.finisher = true := by
  rw [selectCat] at h
  by_cases h0 : n ≤ 0
  · rw [if_pos h0] at h
    simp at h
  · rw [if_neg h0] at h
    by_cases h1 : finDf df ag = []
    · rw [if_pos h1] at h
      simp at h
    · rw [if_neg h1] at h
      obtain ⟨p, hp, hpi⟩ := List.mem_map.mp h
      have hp' : p ∈ (finDf df ag).insertionSort fun a b =>
          a.2.age_group_rank ≤ b.2.age_group_rank := List.mem_of_mem_take hp
      rw [List.mem_insertionSort, finDf, List.mem_filter] at hp'
      refine ⟨p.2, ?_, ?_, ?_⟩
      · rw [← hpi]
        exact hp'.1
      · have := hp'.2
        simp at this
        exact this.1
      · have := hp'.2
        simp at this
        exact this.2

/-- Claim C7: shape of the returned allocation map. Its key set is exactly
the ground-truth set; every value is a non-negative integer; categories
outside the ground-truth set are not in the map and can never produce a
qualifier in `determine_qualifiers` (every returned row index belongs to a
finisher of a ground-truth category); and ground-truth categories absent
from the aggregated roster hold 0 slots. -/
theorem C7_allocation_map_shape (slotDf : List SlotRow) (valid : List String)
    (mens womens : Int) (wf : WfSlotDf slotDf valid) :
    ∀ a, calculate_slot_allocation slotDf valid mens womens = some a →
      (∀ k, k ∈ keysOf a ↔ k ∈ valid) ∧
      (∀ p ∈ a, 0 ≤ p.2) ∧
      (∀ ag, ag ∉ valid → ¬dmem a ag) ∧
      (∀ df : List Competitor, ∀ i ∈ determine_qualifiers df a,
        ∃ c, (i, c) ∈ df.enum ∧ c.age_group ∈ valid ∧ c.finisher = true) ∧
      (∀ ag ∈ valid, ag ∉ slotDf.map SlotRow.age_group → dgetD a ag 0 = 0) := by
  intro a ha
  have haeq : calculateRun slotDf valid mens womens = a :=
    Option.some.inj ((calculate_eq slotDf valid mens womens).symm.trans ha)
  subst haeq
  have hkeys := keysOf_calculateRun slotDf valid mens womens wf
  refine ⟨hkeys, nonneg_calculateRun slotDf valid mens womens, ?_, ?_, ?_⟩
  · intro ag hag hd
    exact hag ((hkeys ag).mp (dmem_iff.mp hd))
  · intro df i hi
    rw [determine_qualifiers_eq] at hi
    obtain ⟨l, hl, hil⟩ := List.mem_flatten.mp hi
    obtain ⟨p, hp, hpl⟩ := List.mem_map.mp hl
    rw [← hpl] at hil
    obtain ⟨c, hc, hcag, hcfin⟩ := mem_selectCat hil
    refine ⟨c, hc, ?_, hcfin⟩
    rw [hcag]
    exact (hkeys p.1).mp (List.mem_map.mpr ⟨p, hp, rfl⟩)
  · intro ag hag hnotin
    have hne : ∀ r ∈ slotDf, r.age_group ≠ ag := by
      intro r hr hc
      exact hnotin (hc ▸ List.mem_map_of_mem SlotRow.age_group hr)
    have h0 : dget? (initAlloc valid) ag = some 0 := dget?_initAlloc hag
    have h1 : dget? (minGuarantee slotDf (initAlloc valid) mens womens).1 ag
        = some 0 := by
      rw [minGuarantee_get_untouched slotDf _ mens womens
        (fun r hr hc => absurd hc (hne r hr)), h0]
    have hmg : ∀ r ∈ maleGroups slotDf, r.age_group ≠ ag := fun r hr =>
      hne r (List.mem_of_mem_filter hr)
    have hfg : ∀ r ∈ femaleGroups slotDf, r.age_group ≠ ag := fun r hr =>
      hne r (List.mem_of_mem_filter hr)
    have h2 : dget? (allocBeforeReallocRun slotDf valid mens womens) ag
        = some 0 := by
      simp only [allocBeforeReallocRun]
      rw [dget?_genderPhaseRun_notin _ _ _ _ hfg,
        dget?_genderPhaseRun_notin _ _ _ _ hmg]
      exact h1
    have h3 : dget? (reallocRun slotDf
        (allocBeforeReallocRun slotDf valid mens womens)) ag = some 0 := by
      rw [reallocRun,
        dget?_foldl_stepRun_notin (maleGroups slotDf) (femaleGroups slotDf)
          slotDf _ ag hne hmg hfg]
      exact h2
    have hmem3 : ag ∈ keysOf (reallocRun slotDf
        (allocBeforeReallocRun slotDf valid mens womens)) := by
      rw [reallocRun, keysOf_foldl_stepRun,
        keysOf_allocBeforeReallocRun slotDf valid mens womens wf,
        mem_keysOf_initAlloc]
      exact hag
    rw [calculateRun, dgetD, dget?_fillMissing_mem _ _ _ hmem3, h3]
    rfl

/-- Claim C7, witness: the §8 example. -/
theorem C7_allocation_map_shape_witness :
    (∀ k, k ∈ keysOf [("M35-39", (3 : Int)), ("M40-44", 0)] ↔ k ∈ exC2Valid) ∧
    (∀ p ∈ [("M35-39", (3 : Int)), ("M40-44", 0)], 0 ≤ p.2) ∧
    (∀ ag, ag ∉ exC2Valid → ¬dmem [("M35-39", (3 : Int)), ("M40-44", 0)] ag) ∧
    (∀ df : List Competitor,
      ∀ i ∈ determine_qualifiers df [("M35-39", (3 : Int)), ("M40-44", 0)],
        ∃ c, (i, c) ∈ df.enum ∧ c.age_group ∈ exC2Valid ∧ c.finisher = true) ∧
    (∀ ag ∈ exC2Valid,
      ag ∉ (buildSlotDf exC2Roster exC2Valid).map SlotRow.age_group →
        dgetD [("M35-39", (3 : Int)), ("M40-44", 0)] ag 0 = 0) :=
  C7_allocation_map_shape (buildSlotDf exC2Roster exC2Valid) exC2Valid 3 0
    ⟨by with_unfolding_all decide, by with_unfolding_all decide,
     by with_unfolding_all decide⟩
    [("M35-39", 3), ("M40-44", 0)]
    (by with_unfolding_all rfl)

theorem sum_filter_key_of_nodup (l : List (String × Int)) (k : String)
    (hnd : (l.map Prod.fst).Nodup) (hk : k ∈ l.map Prod.fst)
    (hone : ∀ q ∈ l, q.2 = (1 : Int)) :
    ((l.filter fun q => decide (q.1 = k)).map Prod.snd).sum = 1 := by
  induction l with
  | nil => simp at hk
  | cons q l ih =>
    rw [List.map_cons, List.nodup_cons] at hnd
    by_cases hq : q.1 = k
    · rw [List.filter_cons, if_pos (by simpa using hq)]
      have hnil : (l.filter fun q => decide (q.1 = k)) = [] := by
        rw [List.filter_eq_nil_iff]
        intro p hp
        simp only [decide_eq_true_eq]
        intro hc
        exact hnd.1 (hq ▸ hc ▸ List.mem_map_of_mem Prod.fst hp)
      rw [hnil]
      simp [hone q (List.mem_cons_self _ _)]
    · rw [List.filter_cons, if_neg (by simpa using hq)]
      have hk' : k ∈ l.map Prod.fst := by
        rcases List.mem_cons.mp hk with h | h
        · exact absurd h.symm hq
        · exact h
      exact ih hnd.2 hk' fun p hp => hone p (List.mem_cons_of_mem _ hp)

/-- Claim C3: the zero-finisher reallocation rule. When the loop processes
a started category with no finishers and a positive allocation `k`, the
step is: zero the category, rank the gender's finisher-bearing categories
descending by `starters_count / max(1, current allocation)`, and give one
slot to each of the top `min(k, #targets)`; surplus slots beyond the number
of targets are dropped, so the total can strictly decrease (witnessed by
the closing concrete instance, where 6 pre-reallocation slots become 4). -/
theorem C3_zero_finisher_reallocation_rule (slotDf : List SlotRow)
    (alloc : Alloc) (row : SlotRow)
    (wfnd : (slotDf.map SlotRow.age_group).Nodup)
    (hrow : row ∈ slotDf)
    (hst : 0 < row.starters_count) (hfin : row.finishers_count = 0)
    (hmem : dmem alloc row.age_group)
    (hpos : 0 < dgetD alloc row.age_group 0)
    (hkeys : ∀ t ∈ slotDf, t.age_group ∈ keysOf alloc) :
    (∃ ranked,
      reallocStep (maleGroups slotDf) (femaleGroups slotDf) alloc row
        = some (awardLoop ranked (dgetD alloc row.age_group 0).toNat
            (dset alloc row.age_group 0)) ∧
      ranked.Perm (((if row.gender = "M" then maleGroups slotDf
          else femaleGroups slotDf).filter fun t =>
            decide (0 < t.finishers_count)).map fun t =>
          (t.age_group,
           (t.starters_count : ℚ) /
             ((max 1 (dgetD (dset alloc row.age_group 0) t.age_group 1) : Int) : ℚ))) ∧
      ranked.Pairwise (fun a b => b.2 ≤ a.2) ∧
      (ranked.take (dgetD alloc row.age_group 0).toNat).length
        = min (dgetD alloc row.age_group 0).toNat
            (((if row.gender = "M" then maleGroups slotDf
               else femaleGroups slotDf).filter fun t =>
              decide (0 < t.finishers_count)).length) ∧
      ∀ a', reallocStep (maleGroups slotDf) (femaleGroups slotDf) alloc row
          = some a' →
        dget? a' row.age_group = some 0 ∧
        sumAll a' = sumAll alloc - dgetD alloc row.age_group 0 +
          ((ranked.take (dgetD alloc row.age_group 0).toNat).length : Int) ∧
        (∀ p ∈ ranked.take (dgetD alloc row.age_group 0).toNat,
          dget? a' p.1 = (dget? alloc p.1).map (· + 1)) ∧
        (∀ k, k ∉ (ranked.take (dgetD alloc row.age_group 0).toNat).map Prod.fst →
          k ≠ row.age_group → dget? a' k = dget? alloc k)) ∧
    sumG ((calculate_slot_allocation
        [⟨"M18-24", "M", 4, 2⟩, ⟨"M25-29", "M", 3, 0⟩, ⟨"M30-34", "M", 2, 0⟩]
        ["M18-24", "M25-29", "M30-34"] 6 0).getD []) "M"
      < sumG ((allocBeforeRealloc
        [⟨"M18-24", "M", 4, 2⟩, ⟨"M25-29", "M", 3, 0⟩, ⟨"M30-34", "M", 2, 0⟩]
        ["M18-24", "M25-29", "M30-34"] 6 0).getD []) "M" := by
  constructor
  · set k := dgetD alloc row.age_group 0 with hk
    set alloc1 := dset alloc row.age_group 0 with halloc1
    set tgs := ((if row.gender = "M" then maleGroups slotDf
        else femaleGroups slotDf).filter fun t =>
          decide (0 < t.finishers_count)) with htgs
    set L := tgs.map (fun t =>
        (t.age_group,
         (t.starters_count : ℚ) /
           ((max 1 (dgetD alloc1 t.age_group 1) : Int) : ℚ))) with hL
    have h1 : 0 < row.starters_count ∧ row.finishers_count = 0 ∧
        dmem alloc row.age_group ∧ 0 < dgetD alloc row.age_group 0 :=
      ⟨hst, hfin, hmem, hpos⟩
    have htgs_slot : ∀ t ∈ tgs, t ∈ slotDf := by
      intro t ht
      have h' := List.mem_of_mem_filter ht
      by_cases hg : row.gender = "M"
      · rw [if_pos hg] at h'
        exact List.mem_of_mem_filter h'
      · rw [if_neg hg] at h'
        exact List.mem_of_mem_filter h'
    have htgs_fin : ∀ t ∈ tgs, 0 < t.finishers_count := by
      intro t ht
      have h' := (List.mem_filter.mp ht).2
      simpa using h'
    have htgs_ne : ∀ t ∈ tgs, t.age_group ≠ row.age_group := by
      intro t ht hc
      have heq : t = row :=
        List.inj_on_of_nodup_map wfnd (htgs_slot t ht) hrow hc
      have := htgs_fin t ht
      rw [heq, hfin] at this
      omega
    have hstep : reallocStepRun (maleGroups slotDf) (femaleGroups slotDf)
        alloc row = awardLoop (sortDescQ L) k.toNat alloc1 := by
      rw [reallocStepRun, if_pos h1, ← hk, ← halloc1, ← htgs]
      by_cases h2 : tgs = []
      · rw [if_pos h2, hL, h2, List.map_nil, sortDescQ, List.insertionSort,
          awardLoop, List.take_nil, List.foldl_nil]
      · rw [if_neg h2, ← hL]
    refine ⟨sortDescQ L, ?_, ?_, ?_, ?_, ?_⟩
    · rw [reallocStep_eq, hstep]
    · rw [sortDescQ]
      exact List.perm_insertionSort _ L
    · haveI h_tot : IsTotal (String × ℚ) (fun a b => b.2 ≤ a.2) :=
        ⟨fun a b => le_total b.2 a.2⟩
      haveI h_trans : IsTrans (String × ℚ) (fun a b => b.2 ≤ a.2) :=
        ⟨fun a b c hab hbc => le_trans hbc hab⟩
      have := List.sorted_insertionSort (r := fun a b : String × ℚ => b.2 ≤ a.2) L
      rw [sortDescQ]
      exact this
    · rw [List.length_take, sortDescQ, List.length_insertionSort, hL,
        List.length_map]
    · intro a' ha'
      rw [reallocStep_eq, hstep] at ha'
      have ha'eq : a' = awardLoop (sortDescQ L) k.toNat alloc1 :=
        (Option.some.inj ha').symm
      subst ha'eq
      have hLkeys_nodup : ((sortDescQ L).map Prod.fst).Nodup := by
        have hperm : (sortDescQ L).map Prod.fst |>.Perm (L.map Prod.fst) := by
          rw [sortDescQ]
          exact (List.perm_insertionSort _ L).map Prod.fst
        rw [hperm.nodup_iff, hL, List.map_map]
        have hsub : tgs.map (Prod.fst ∘ fun t =>
            (t.age_group,
             (t.starters_count : ℚ) /
               ((max 1 (dgetD alloc1 t.age_group 1) : Int) : ℚ)))
            = tgs.map SlotRow.age_group := rfl
        rw [hsub]
        have hs1 : List.Sublist tgs (if row.gender = "M" then maleGroups slotDf
            else femaleGroups slotDf) := htgs ▸ List.filter_sublist _
        have hs2 : List.Sublist (if row.gender = "M" then maleGroups slotDf
            else femaleGroups slotDf) slotDf := by
          by_cases hg : row.gender = "M"
          · rw [if_pos hg]
            exact List.filter_sublist _
          · rw [if_neg hg]
            exact List.filter_sublist _
        exact (List.Sublist.map SlotRow.age_group (hs1.trans hs2)).nodup wfnd
      have htake_nodup : (((sortDescQ L).take k.toNat).map Prod.fst).Nodup := by
        rw [List.map_take]
        exact ((List.map Prod.fst (sortDescQ L)).take_sublist k.toNat).nodup
          hLkeys_nodup
      have hmemkey : ∀ p ∈ sortDescQ L, ∃ t ∈ tgs, p.1 = t.age_group := by
        intro p hp
        rw [sortDescQ, List.mem_insertionSort, hL] at hp
        obtain ⟨t, ht, htp⟩ := List.mem_map.mp hp
        exact ⟨t, ht, by rw [← htp]⟩
      have hkey_ne : ∀ p ∈ sortDescQ L, p.1 ≠ row.age_group := by
        intro p hp
        obtain ⟨t, ht, hpt⟩ := hmemkey p hp
        rw [hpt]
        exact htgs_ne t ht
      have hkey_in : ∀ p ∈ sortDescQ L, p.1 ∈ keysOf alloc1 := by
        intro p hp
        obtain ⟨t, ht, hpt⟩ := hmemkey p hp
        rw [hpt, halloc1, keysOf_dset_mem _ _ (dmem_iff.mp hmem)]
        exact hkeys t (htgs_slot t ht)
      refine ⟨?_, ?_, ?_, ?_⟩
      · rw [awardLoop_eq]
        rw [dget?_incrFold_notin _ _ _ ?_]
        · rw [halloc1, dget?_dset_self]
        · intro p hp
          obtain ⟨p', hp', hpp⟩ := List.mem_map.mp hp
          rw [← hpp]
          exact hkey_ne p' (List.mem_of_mem_take hp')
      · rw [awardLoop_eq, sumAll_incrFold _ _ ?_]
        · rw [halloc1, sumAll_dset, List.map_map,
            show (Prod.snd ∘ fun p : String × ℚ => (p.1, (1 : Int)))
                = fun _ => (1 : Int) from rfl,
            sum_map_one]
          ring
        · intro p hp
          obtain ⟨p', hp', hpp⟩ := List.mem_map.mp hp
          rw [← hpp]
          exact hkey_in p' (List.mem_of_mem_take hp')
      · intro p hp
        rw [awardLoop_eq]
        rw [dget?_incrFold]
        have hval : (((((sortDescQ L).take k.toNat).map fun p =>
            (p.1, (1 : Int))).filter fun q => decide (q.1 = p.1)).map
              Prod.snd).sum = 1 := by
          apply sum_filter_key_of_nodup
          · rw [List.map_map]
            have : ((sortDescQ L).take k.toNat).map (Prod.fst ∘ fun p =>
                (p.1, (1 : Int)))
                = ((sortDescQ L).take k.toNat).map Prod.fst := rfl
            rw [this]
            exact htake_nodup
          · rw [List.map_map]
            exact List.mem_map.mpr ⟨p, hp, rfl⟩
          · intro q hq
            obtain ⟨q', hq', hqq⟩ := List.mem_map.mp hq
            rw [← hqq]
        rw [hval]
        have halloc1p : dget? alloc1 p.1 = dget? alloc p.1 := by
          rw [halloc1]
          exact dget?_dset_ne _ _ (hkey_ne p (List.mem_of_mem_take hp))
        rw [halloc1p]
      · intro key hkeynotin hkeyne
        rw [awardLoop_eq, dget?_incrFold_notin _ _ _ ?_]
        · rw [halloc1, dget?_dset_ne _ _ hkeyne]
        · intro p hp
          obtain ⟨p', hp', hpp⟩ := List.mem_map.mp hp
          rw [← hpp]
          intro hc
          exact hkeynotin (hc ▸ List.mem_map.mpr ⟨p', hp', rfl⟩)
  · have e1 : (calculate_slot_allocation
        [⟨"M18-24", "M", 4, 2⟩, ⟨"M25-29", "M", 3, 0⟩, ⟨"M30-34", "M", 2, 0⟩]
        ["M18-24", "M25-29", "M30-34"] 6 0).getD []
        = [("M18-24", 4), ("M25-29", 0), ("M30-34", 0)] := by
      with_unfolding_all rfl
    have e2 : (allocBeforeRealloc
        [⟨"M18-24", "M", 4, 2⟩, ⟨"M25-29", "M", 3, 0⟩, ⟨"M30-34", "M", 2, 0⟩]
        ["M18-24", "M25-29", "M30-34"] 6 0).getD []
        = [("M18-24", 2), ("M25-29", 2), ("M30-34", 2)] := by
      with_unfolding_all rfl
    rw [e1, e2]
    with_unfolding_all decide

theorem C3_zero_finisher_reallocation_rule_witness :
    (∃ ranked,
      reallocStep (maleGroups [⟨"M18-24", "M", 4, 2⟩, ⟨"M25-29", "M", 3, 0⟩, ⟨"M30-34", "M", 2, 0⟩])
          (femaleGroups [⟨"M18-24", "M", 4, 2⟩, ⟨"M25-29", "M", 3, 0⟩, ⟨"M30-34", "M", 2, 0⟩])
          [("M18-24", 2), ("M25-29", 2), ("M30-34", 2)] ⟨"M25-29", "M", 3, 0⟩
        = some (awardLoop ranked
            (dgetD [("M18-24", 2), ("M25-29", 2), ("M30-34", 2)] "M25-29" 0).toNat
            (dset [("M18-24", 2), ("M25-29", 2), ("M30-34", 2)] "M25-29" 0)) ∧
      ranked.Perm (((if ("M" : String) = "M"
          then maleGroups [⟨"M18-24", "M", 4, 2⟩, ⟨"M25-29", "M", 3, 0⟩, ⟨"M30-34", "M", 2, 0⟩]
          else femaleGroups [⟨"M18-24", "M", 4, 2⟩, ⟨"M25-29", "M", 3, 0⟩, ⟨"M30-34", "M", 2, 0⟩]).filter fun t =>
            decide (0 < t.finishers_count)).map fun t =>
          (t.age_group,
           (t.starters_count : ℚ) /
             ((max 1 (dgetD (dset [("M18-24", 2), ("M25-29", 2), ("M30-34", 2)] "M25-29" 0)
                 t.age_group 1) : Int) : ℚ))) ∧
      ranked.Pairwise (fun a b => b.2 ≤ a.2) ∧
      (ranked.take (dgetD [("M18-24", 2), ("M25-29", 2), ("M30-34", 2)] "M25-29" 0).toNat).length
        = min (dgetD [("M18-24", 2), ("M25-29", 2), ("M30-34", 2)] "M25-29" 0).toNat
            (((if ("M" : String) = "M"
               then maleGroups [⟨"M18-24", "M", 4, 2⟩, ⟨"M25-29", "M", 3, 0⟩, ⟨"M30-34", "M", 2, 0⟩]
               else femaleGroups [⟨"M18-24", "M", 4, 2⟩, ⟨"M25-29", "M", 3, 0⟩, ⟨"M30-34", "M", 2, 0⟩]).filter fun t =>
              decide (0 < t.finishers_count)).length) ∧
      ∀ a', reallocStep (maleGroups [⟨"M18-24", "M", 4, 2⟩, ⟨"M25-29", "M", 3, 0⟩, ⟨"M30-34", "M", 2, 0⟩])
          (femaleGroups [⟨"M18-24", "M", 4, 2⟩, ⟨"M25-29", "M", 3, 0⟩, ⟨"M30-34", "M", 2, 0⟩])
          [("M18-24", 2), ("M25-29", 2), ("M30-34", 2)] ⟨"M25-29", "M", 3, 0⟩
          = some a' →
        dget? a' "M25-29" = some 0 ∧
        sumAll a' = sumAll [("M18-24", 2), ("M25-29", 2), ("M30-34", 2)] -
          dgetD [("M18-24", 2), ("M25-29", 2), ("M30-34", 2)] "M25-29" 0 +
          ((ranked.take (dgetD [("M18-24", 2), ("M25-29", 2), ("M30-34", 2)] "M25-29" 0).toNat).length : Int) ∧
        (∀ p ∈ ranked.take (dgetD [("M18-24", 2), ("M25-29", 2), ("M30-34", 2)] "M25-29" 0).toNat,
          dget? a' p.1 = (dget? [("M18-24", 2), ("M25-29", 2), ("M30-34", 2)] p.1).map (· + 1)) ∧
        (∀ k, k ∉ (ranked.take
              (dgetD [("M18-24", 2), ("M25-29", 2), ("M30-34", 2)] "M25-29" 0).toNat).map Prod.fst →
          k ≠ "M25-29" → dget? a' k = dget? [("M18-24", 2), ("M25-29", 2), ("M30-34", 2)] k)) ∧
    sumG ((calculate_slot_allocation [⟨"M18-24", "M", 4, 2⟩, ⟨"M25-29", "M", 3, 0⟩, ⟨"M30-34", "M", 2, 0⟩]
        ["M18-24", "M25-29", "M30-34"] 6 0).getD []) "M"
      < sumG ((allocBeforeRealloc [⟨"M18-24", "M", 4, 2⟩, ⟨"M25-29", "M", 3, 0⟩, ⟨"M30-34", "M", 2, 0⟩]
        ["M18-24", "M25-29", "M30-34"] 6 0).getD []) "M" :=
  C3_zero_finisher_reallocation_rule [⟨"M18-24", "M", 4, 2⟩, ⟨"M25-29", "M", 3, 0⟩, ⟨"M30-34", "M", 2, 0⟩]
    [("M18-24", 2), ("M25-29", 2), ("M30-34", 2)] ⟨"M25-29", "M", 3, 0⟩
    (by decide) (by decide) (by decide) (by decide) (by decide) (by decide)
    (by decide)

/-- Claim C5: selector correctness and under-fill. `determine_qualifiers`
is the concatenation, over the allocation dict in insertion order, of the
per-category selections; a category given `N > 0` slots returns the row
indices of an ascending-rank prefix of its finishers of length
`min(N, #finishers)`, every selected entry is a genuine indexed finisher of
the category (nothing fabricated), every unselected finisher outranks every
selected one (strictly, when ranks are distinct), and a non-positive
allocation or an empty finisher pool contributes nothing. -/
theorem C5_selector_correctness_and_underfill (df : List Competitor)
    (ag : String) (N : Int) (hN : 0 < N)
    (hranks : (finDf df ag).Pairwise
      (fun a b => a.2.age_group_rank ≠ b.2.age_group_rank)) :
    (∀ m : Alloc, determine_qualifiers df m
      = (m.map fun p => selectCat df p.1 p.2).flatten) ∧
    (∀ M : Int, M ≤ 0 → selectCat df ag M = []) ∧
    (finDf df ag = [] → selectCat df ag N = []) ∧
    ∃ pre : List (Nat × Competitor),
      selectCat df ag N = pre.map Prod.fst ∧
      (∀ p ∈ pre, p ∈ finDf df ag) ∧
      pre.Pairwise (fun a b => a.2.age_group_rank ≤ b.2.age_group_rank) ∧
      pre.length = min N.toNat (finDf df ag).length ∧
      (∀ q ∈ finDf df ag, q ∉ pre → ∀ p ∈ pre,
        p.2.age_group_rank < q.2.age_group_rank) := by
  refine ⟨fun m => determine_qualifiers_eq df m, fun M hM => ?_, fun hfd => ?_, ?_⟩
  · rw [selectCat, if_pos hM]
  · rw [selectCat, if_neg (not_le.mpr hN), if_pos hfd]
  · by_cases hfd : finDf df ag = []
    · refine ⟨[], ?_, ?_, List.Pairwise.nil, ?_, ?_⟩
      · rw [selectCat, if_neg (not_le.mpr hN), if_pos hfd, List.map_nil]
      · intro p hp
        simp at hp
      · rw [hfd]
        simp
      · intro q hq
        rw [hfd] at hq
        simp at hq
    · haveI h_tot : IsTotal (Nat × Competitor)
          (fun a b => a.2.age_group_rank ≤ b.2.age_group_rank) :=
        ⟨fun a b => Nat.le_total _ _⟩
      haveI h_trans : IsTrans (Nat × Competitor)
          (fun a b => a.2.age_group_rank ≤ b.2.age_group_rank) :=
        ⟨fun a b c hab hbc => le_trans hab hbc⟩
      refine ⟨((finDf df ag).insertionSort fun a b =>
          a.2.age_group_rank ≤ b.2.age_group_rank).take N.toNat,
        ?_, ?_, ?_, ?_, ?_⟩
      · rw [selectCat, if_neg (not_le.mpr hN), if_neg hfd]
      · intro p hp
        have hp' := List.mem_of_mem_take hp
        rwa [List.mem_insertionSort] at hp'
      · have hs := List.sorted_insertionSort
          (r := fun a b : Nat × Competitor =>
            a.2.age_group_rank ≤ b.2.age_group_rank) (finDf df ag)
        exact List.Pairwise.sublist (List.take_sublist _ _) hs
      · rw [List.length_take, List.length_insertionSort]
      · intro q hq hqnot p hp
        have hsorted := List.sorted_insertionSort
          (r := fun a b : Nat × Competitor =>
            a.2.age_group_rank ≤ b.2.age_group_rank) (finDf df ag)
        have hsplit := List.take_append_drop N.toNat
          ((finDf df ag).insertionSort fun a b =>
            a.2.age_group_rank ≤ b.2.age_group_rank)
        have hq' : q ∈ (finDf df ag).insertionSort fun a b =>
            a.2.age_group_rank ≤ b.2.age_group_rank := by
          rw [List.mem_insertionSort]
          exact hq
        rw [← hsplit] at hq' hsorted
        have hqdrop : q ∈ ((finDf df ag).insertionSort fun a b =>
            a.2.age_group_rank ≤ b.2.age_group_rank).drop N.toNat := by
          rcases List.mem_append.mp hq' with h | h
          · exact absurd h hqnot
          · exact h
        have hle : p.2.age_group_rank ≤ q.2.age_group_rank :=
          (List.pairwise_append.mp hsorted).2.2 p hp q hqdrop
        have hpfin : p ∈ finDf df ag := by
          have hp' := List.mem_of_mem_take hp
          rwa [List.mem_insertionSort] at hp'
        have hsym : Symmetric (fun a b : Nat × Competitor =>
            a.2.age_group_rank ≠ b.2.age_group_rank) := fun a b h => h.symm
        have hneq : p.2.age_group_rank ≠ q.2.age_group_rank :=
          hranks.forall hsym hpfin hq (fun hc => hqnot (hc ▸ hp))
        exact lt_of_le_of_ne hle hneq

theorem C5_selector_correctness_and_underfill_witness :
    (∀ m : Alloc, determine_qualifiers
      [⟨"x1", "M35-39", true, 5⟩, ⟨"x2", "M35-39", true, 2⟩,
      ⟨"x3", "M35-39", false, 1⟩, ⟨"x4", "M40-44", true, 1⟩] m
      = (m.map fun p => selectCat
          [⟨"x1", "M35-39", true, 5⟩, ⟨"x2", "M35-39", true, 2⟩,
      ⟨"x3", "M35-39", false, 1⟩, ⟨"x4", "M40-44", true, 1⟩] p.1 p.2).flatten) ∧
    (∀ M : Int, M ≤ 0 → selectCat
      [⟨"x1", "M35-39", true, 5⟩, ⟨"x2", "M35-39", true, 2⟩,
      ⟨"x3", "M35-39", false, 1⟩, ⟨"x4", "M40-44", true, 1⟩] "M35-39" M = []) ∧
    (finDf [⟨"x1", "M35-39", true, 5⟩, ⟨"x2", "M35-39", true, 2⟩,
      ⟨"x3", "M35-39", false, 1⟩, ⟨"x4", "M40-44", true, 1⟩] "M35-39" = [] →
      selectCat [⟨"x1", "M35-39", true, 5⟩, ⟨"x2", "M35-39", true, 2⟩,
      ⟨"x3", "M35-39", false, 1⟩, ⟨"x4", "M40-44", true, 1⟩] "M35-39" 1 = []) ∧
    ∃ pre : List (Nat × Competitor),
      selectCat [⟨"x1", "M35-39", true, 5⟩, ⟨"x2", "M35-39", true, 2⟩,
      ⟨"x3", "M35-39", false, 1⟩, ⟨"x4", "M40-44", true, 1⟩] "M35-39" 1 = pre.map Prod.fst ∧
      (∀ p ∈ pre, p ∈ finDf
        [⟨"x1", "M35-39", true, 5⟩, ⟨"x2", "M35-39", true, 2⟩,
      ⟨"x3", "M35-39", false, 1⟩, ⟨"x4", "M40-44", true, 1⟩] "M35-39") ∧
      pre.Pairwise (fun a b => a.2.age_group_rank ≤ b.2.age_group_rank) ∧
      pre.length = min (1 : Int).toNat (finDf
        [⟨"x1", "M35-39", true, 5⟩, ⟨"x2", "M35-39", true, 2⟩,
      ⟨"x3", "M35-39", false, 1⟩, ⟨"x4", "M40-44", true, 1⟩] "M35-39").length ∧
      (∀ q ∈ finDf [⟨"x1", "M35-39", true, 5⟩, ⟨"x2", "M35-39", true, 2⟩,
      ⟨"x3", "M35-39", false, 1⟩, ⟨"x4", "M40-44", true, 1⟩] "M35-39",
        q ∉ pre → ∀ p ∈ pre,
        p.2.age_group_rank < q.2.age_group_rank) :=
  C5_selector_correctness_and_underfill
    [⟨"x1", "M35-39", true, 5⟩, ⟨"x2", "M35-39", true, 2⟩,
      ⟨"x3", "M35-39", false, 1⟩, ⟨"x4", "M40-44", true, 1⟩] "M35-39" 1 (by decide) (by decide)

end IronmanAnalyzer
